import Mathlib

/-!
Verification development for the ai_impact_data_collection pipeline.

The Python source is shallowly embedded: dicts become structures (a missing
key is `Option.none` where key presence matters, or the falsy default where
only truthiness matters), loops become folds/recursions, and Python `float`
arithmetic is modelled by exact rational arithmetic (`ℚ`); the explicit
decimal `round(x, n)` calls of the source are modelled by an explicit
banker's-rounding function.  Python's `str.lower` is modelled on the ASCII
range (all configured keywords are ASCII or Chinese, where `lower` is the
identity), and the `\s` character class of the `re` module is modelled by
its ASCII members.
-/

namespace AiImpact

/-- ASCII members of Python's regex `\s` class. -/
def isPySpace (c : Char) : Bool :=
  c = ' ' || c = '\t' || c = '\n' || c = '\x0d' || c = '\x0b' || c = '\x0c'

/-- `pfx n h`: the char list `n` is a prefix of `h` (Python slice compare). -/
def pfx : List Char → List Char → Bool
  | [], _ => true
  | _ :: _, [] => false
  | a :: as, b :: bs => a = b && pfx as bs

/-- `containsSub n h`: Python's substring test `n in h` on char lists. -/
def containsSub : List Char → List Char → Bool
  | n, [] => pfx n []
  | n, c :: h => pfx n (c :: h) || containsSub n h

/-- Python's `needle in hay` for strings. -/
def strIn (needle hay : String) : Bool :=
  containsSub needle.data hay.data

/-- Python `str.lower()` on the ASCII range (CJK characters are unchanged,
as in Python). -/
def pyCharLower (c : Char) : Char :=
  if 'A' ≤ c ∧ c ≤ 'Z' then Char.ofNat (c.toNat + 32) else c

def toLowerStr (s : String) : String :=
  ⟨s.data.map pyCharLower⟩

/-- Drop everything up to and including the first `'>'`
(the tail of a `<[^>]+>` regex match). -/
def dropThroughGt : List Char → List Char
  | [] => []
  | c :: cs => if c = '>' then cs else dropThroughGt cs

/-- After a `'<'`, does the regex `<[^>]+>` match?  It does iff at least one
non-`'>'` character follows and a `'>'` occurs after it. -/
def tagMatch : List Char → Bool
  | [] => false
  | a :: r => decide (a ≠ '>') && r.contains '>'

theorem dropThroughGt_length_le (cs : List Char) :
    (dropThroughGt cs).length ≤ cs.length := by
  induction cs with
  | nil => simp [dropThroughGt]
  | cons c cs ih =>
    simp only [dropThroughGt]
    split
    · exact Nat.le_succ_of_le (Nat.le_refl _)
    · exact Nat.le_succ_of_le ih

/-- Fuelled worker for `stripTags` (fuel keeps the recursion structural, so
that concrete inputs evaluate; the fuel is irrelevant once it is at least the
length of the list, see `stripTagsF_congr`). -/
def stripTagsF : Nat → List Char → List Char
  | 0, cs => cs
  | _ + 1, [] => []
  | n + 1, c :: cs =>
    if c = '<' && tagMatch cs then stripTagsF n (dropThroughGt cs)
    else c :: stripTagsF n cs

theorem stripTagsF_congr :
    ∀ n m cs, List.length cs ≤ n → List.length cs ≤ m →
      stripTagsF n cs = stripTagsF m cs := by
  intro n
  induction n with
  | zero =>
    intro m cs hn _
    have : cs = [] := List.length_eq_zero.mp (Nat.le_zero.mp hn)
    subst this
    cases m <;> rfl
  | succ n ih =>
    intro m cs hn hm
    cases cs with
    | nil => cases m <;> rfl
    | cons c cs =>
      cases m with
      | zero => exact absurd hm (by simp)
      | succ m =>
        simp only [stripTagsF]
        have hn' : cs.length ≤ n := Nat.le_of_succ_le_succ (by simpa using hn)
        have hm' : cs.length ≤ m := Nat.le_of_succ_le_succ (by simpa using hm)
        split
        · exact ih m _ (Nat.le_trans (dropThroughGt_length_le cs) hn')
            (Nat.le_trans (dropThroughGt_length_le cs) hm')
        · rw [ih m cs hn' hm']

/-- Embeds `re.sub(r'<[^>]+>', '', text)` from `utils/helpers.py::clean_text`:
scan left to right, deleting each (leftmost, greedy) tag-shaped match. -/
def stripTags (cs : List Char) : List Char :=
  stripTagsF cs.length cs

theorem stripTags_nil : stripTags [] = [] := rfl

/-- The intended recursion equation for `stripTags`. -/
theorem stripTags_cons (c : Char) (cs : List Char) :
    stripTags (c :: cs) =
      if c = '<' && tagMatch cs then stripTags (dropThroughGt cs)
      else c :: stripTags cs := by
  show stripTagsF (cs.length + 1) (c :: cs) = _
  simp only [stripTagsF]
  split
  · exact stripTagsF_congr _ _ _ (dropThroughGt_length_le cs) (Nat.le_refl _)
  · rfl

/-- Embeds `re.sub(r'\s+', ' ', text)`: every maximal whitespace run becomes
a single space. -/
def collapseWs : List Char → List Char
  | [] => []
  | [c] => if isPySpace c then [' '] else [c]
  | c :: d :: cs =>
    if isPySpace c then
      if isPySpace d then collapseWs (d :: cs)
      else ' ' :: collapseWs (d :: cs)
    else c :: collapseWs (d :: cs)

/-- Embeds `str.strip()` (whitespace trim at both ends). -/
def stripEnds (cs : List Char) : List Char :=
  ((cs.dropWhile isPySpace).reverse.dropWhile isPySpace).reverse

/-- Embeds `utils/helpers.py::clean_text` with the default
`remove_newlines=False`: falsy input gives `""`; otherwise HTML-tag removal,
whitespace collapsing, then trimming. -/
def cleanText (s : String) : String :=
  if s = "" then ""
  else ⟨stripEnds (collapseWs (stripTags s.data))⟩

example : cleanText "  <b>hello</b>   world " = "hello world" := by decide
example : cleanText "a  <b" = "a <b" := by decide
example : cleanText "" = "" := by decide

/-! ### `clean_text` is idempotent

The lemmas below show that a second application of each phase of
`clean_text` to its own output is the identity; this backs the dedup
idempotence property of the cleaner. -/

/-- No position of the list starts a `<[^>]+>` match. -/
def tagFree : List Char → Bool
  | [] => true
  | c :: cs => !(c = '<' && tagMatch cs) && tagFree cs

theorem mem_dropThroughGt {a : Char} :
    ∀ cs, a ∈ dropThroughGt cs → a ∈ cs := by
  intro cs h
  induction cs with
  | nil => simpa [dropThroughGt] using h
  | cons c cs ih =>
    simp only [dropThroughGt] at h
    split at h
    · exact List.mem_cons_of_mem _ h
    · exact List.mem_cons_of_mem _ (ih h)

theorem mem_stripTagsF {a : Char} :
    ∀ n cs, a ∈ stripTagsF n cs → a ∈ cs := by
  intro n
  induction n with
  | zero => intro cs h; exact h
  | succ n ih =>
    intro cs h
    cases cs with
    | nil => exact h
    | cons c cs =>
      simp only [stripTagsF] at h
      split at h
      · exact List.mem_cons_of_mem _ (mem_dropThroughGt _ (ih _ h))
      · rcases List.mem_cons.mp h with h | h
        · exact h ▸ List.mem_cons_self _ _
        · exact List.mem_cons_of_mem _ (ih _ h)

theorem mem_stripTags {a : Char} (cs : List Char) (h : a ∈ stripTags cs) :
    a ∈ cs :=
  mem_stripTagsF _ _ h

theorem tagMatch_eq_false_of_not_mem {cs : List Char} (h : '>' ∉ cs) :
    tagMatch cs = false := by
  cases cs with
  | nil => rfl
  | cons a r =>
    have hr : '>' ∉ r := fun hx => h (List.mem_cons_of_mem _ hx)
    simp only [tagMatch, Bool.and_eq_false_iff]
    right
    simp [List.contains, List.elem_eq_mem, hr]

theorem tagMatch_stripTagsF_eq_false {cs : List Char} {n : Nat}
    (hn : cs.length ≤ n) (h : tagMatch cs = false) :
    tagMatch (stripTagsF n cs) = false := by
  cases cs with
  | nil => cases n <;> rfl
  | cons a r =>
    cases n with
    | zero => exact absurd hn (by simp)
    | succ n =>
      simp only [tagMatch, Bool.and_eq_false_iff, decide_eq_false_iff_not,
        Decidable.not_not] at h
      rcases h with h | h
      · subst h
        simp only [stripTagsF]
        rw [if_neg (by simp)]
        simp [tagMatch]
      · have hgm : '>' ∉ r := by
          simpa [List.contains, List.elem_eq_mem] using h
        by_cases hag : a = '>'
        · subst hag
          simp only [stripTagsF]
          rw [if_neg (by simp)]
          simp [tagMatch]
        · have hmem : '>' ∉ (a :: r : List Char) := by
            intro hx
            rcases List.mem_cons.mp hx with hx | hx
            · exact hag hx.symm
            · exact hgm hx
          apply tagMatch_eq_false_of_not_mem
          intro hx
          exact hmem (mem_stripTagsF _ _ hx)

theorem tagFree_stripTagsF :
    ∀ n cs, cs.length ≤ n → tagFree (stripTagsF n cs) = true := by
  intro n
  induction n with
  | zero =>
    intro cs h
    have : cs = [] := List.length_eq_zero.mp (Nat.le_zero.mp h)
    subst this
    rfl
  | succ n ih =>
    intro cs h
    cases cs with
    | nil => rfl
    | cons c cs =>
      have hc : cs.length ≤ n := Nat.le_of_succ_le_succ (by simpa using h)
      simp only [stripTagsF]
      split
      · exact ih _ (Nat.le_trans (dropThroughGt_length_le cs) hc)
      · rename_i hcond
        simp only [tagFree, Bool.and_eq_true]
        refine ⟨?_, ih _ hc⟩
        by_cases hlt : c = '<'
        · subst hlt
          have hcond' : (decide ('<' = '<') && tagMatch cs) = false :=
            Bool.eq_false_iff.mpr hcond
          have hm : tagMatch cs = false := by simpa using hcond'
          have hms := tagMatch_stripTagsF_eq_false hc hm
          simp [hms]
        · simp [hlt]

theorem tagFree_stripTags (cs : List Char) : tagFree (stripTags cs) = true :=
  tagFree_stripTagsF _ _ (Nat.le_refl _)

theorem stripTags_of_tagFree : ∀ cs, tagFree cs = true → stripTags cs = cs := by
  intro cs
  induction cs with
  | nil => intro _; rfl
  | cons c cs ih =>
    intro h
    simp only [tagFree, Bool.and_eq_true] at h
    have hb : (decide (c = '<') && tagMatch cs) = false := by
      cases hx : (decide (c = '<') && tagMatch cs)
      · rfl
      · rw [hx] at h
        exact absurd h.1 (by decide)
    rw [stripTags_cons, if_neg (by simp [hb]), ih h.2]

/-- Characters of `collapseWs` output: each is the space `' '` or a
non-whitespace character of the input. -/
theorem mem_collapseWs :
    ∀ cs, ∀ a ∈ collapseWs cs, a = ' ' ∨ (a ∈ cs ∧ isPySpace a = false) := by
  intro cs
  induction cs with
  | nil =>
    intro a ha
    exact absurd ha (by simp [collapseWs])
  | cons c cs ih =>
    cases cs with
    | nil =>
      intro a ha
      by_cases hc : isPySpace c = true
      · simp only [collapseWs, if_pos hc] at ha
        left
        simpa using ha
      · simp only [collapseWs, if_neg hc] at ha
        rcases List.mem_singleton.mp ha with rfl
        right
        exact ⟨List.mem_cons_self _ _, by simpa using hc⟩
    | cons d cs' =>
      intro a ha
      by_cases hc : isPySpace c = true
      · by_cases hd : isPySpace d = true
        · simp only [collapseWs, if_pos hc, if_pos hd] at ha
          rcases ih a ha with h | h
          · exact Or.inl h
          · exact Or.inr ⟨List.mem_cons_of_mem _ h.1, h.2⟩
        · simp only [collapseWs, if_pos hc, if_neg hd] at ha
          rcases List.mem_cons.mp ha with rfl | ha
          · exact Or.inl rfl
          · rcases ih a ha with h | h
            · exact Or.inl h
            · exact Or.inr ⟨List.mem_cons_of_mem _ h.1, h.2⟩
      · simp only [collapseWs, if_neg hc] at ha
        rcases List.mem_cons.mp ha with rfl | ha
        · exact Or.inr ⟨List.mem_cons_self _ _, by simpa using hc⟩
        · rcases ih a ha with h | h
          · exact Or.inl h
          · exact Or.inr ⟨List.mem_cons_of_mem _ h.1, h.2⟩

/-- A non-whitespace first character survives `collapseWs` as the head. -/
theorem collapseWs_cons_of_not_space {d : Char} (hd : ¬isPySpace d = true)
    (cs : List Char) : ∃ t, collapseWs (d :: cs) = d :: t := by
  cases cs with
  | nil => exact ⟨[], by simp [collapseWs, hd]⟩
  | cons e cs' => exact ⟨collapseWs (e :: cs'), by simp [collapseWs, hd]⟩

/-- A whitespace first character becomes the head space `' '`. -/
theorem collapseWs_cons_of_space :
    ∀ cs {d : Char}, isPySpace d = true →
      ∃ t, collapseWs (d :: cs) = ' ' :: t := by
  intro cs
  induction cs with
  | nil =>
    intro d hd
    exact ⟨[], by simp [collapseWs, hd]⟩
  | cons e cs' ih =>
    intro d hd
    by_cases he : isPySpace e = true
    · rcases ih he with ⟨t, ht⟩
      exact ⟨t, by simp [collapseWs, hd, he, ht]⟩
    · exact ⟨collapseWs (e :: cs'), by simp [collapseWs, hd, he]⟩

/-- Whitespace characters are normalised: any whitespace in the list is `' '`. -/
def SpacesNorm (cs : List Char) : Prop :=
  ∀ a ∈ cs, isPySpace a = true → a = ' '

/-- No two adjacent whitespace characters. -/
def NoAdj : List Char → Prop
  | [] => True
  | [_] => True
  | c :: d :: cs => ¬(isPySpace c = true ∧ isPySpace d = true) ∧ NoAdj (d :: cs)

theorem spacesNorm_collapseWs (cs : List Char) : SpacesNorm (collapseWs cs) := by
  intro a ha _
  rcases mem_collapseWs cs a ha with h | h
  · exact h
  · exact absurd h.2 (by simp_all)

theorem noAdj_cons_of_not_space {c : Char} (hc : ¬isPySpace c = true)
    {l : List Char} (hl : NoAdj l) : NoAdj (c :: l) := by
  cases l with
  | nil => trivial
  | cons d t => exact ⟨fun h => hc h.1, hl⟩

theorem noAdj_collapseWs : ∀ cs, NoAdj (collapseWs cs) := by
  intro cs
  induction cs with
  | nil => trivial
  | cons c cs ih =>
    cases cs with
    | nil =>
      by_cases hc : isPySpace c = true
      · simp only [collapseWs, if_pos hc]; trivial
      · simp only [collapseWs, if_neg hc]; trivial
    | cons d cs' =>
      by_cases hc : isPySpace c = true
      · by_cases hd : isPySpace d = true
        · simpa only [collapseWs, if_pos hc, if_pos hd] using ih
        · simp only [collapseWs, if_pos hc, if_neg hd]
          rcases collapseWs_cons_of_not_space hd cs' with ⟨t, ht⟩
          rw [ht]
          rw [ht] at ih
          exact ⟨fun h => hd h.2, ih⟩
      · simp only [collapseWs, if_neg hc]
        exact noAdj_cons_of_not_space hc ih

theorem collapseWs_eq_self :
    ∀ cs, SpacesNorm cs → NoAdj cs → collapseWs cs = cs := by
  intro cs
  induction cs with
  | nil => intro _ _; rfl
  | cons c cs ih =>
    intro hs hn
    cases cs with
    | nil =>
      by_cases hc : isPySpace c = true
      · have : c = ' ' := hs c (List.mem_cons_self _ _) hc
        simp [collapseWs, hc, this]
      · simp [collapseWs, hc]
    | cons d cs' =>
      by_cases hc : isPySpace c = true
      · have hce : c = ' ' := hs c (List.mem_cons_self _ _) hc
        have hd : ¬isPySpace d = true := fun hd => hn.1 ⟨hc, hd⟩
        have ht := ih (fun a ha h => hs a (List.mem_cons_of_mem _ ha) h) hn.2
        simp [collapseWs, hc, hd, ht, hce]
      · have ht := ih (fun a ha h => hs a (List.mem_cons_of_mem _ ha) h) hn.2
        simp [collapseWs, hc, ht]

/-- `tagMatch` only becomes easier to satisfy on longer lists. -/
theorem tagMatch_append {l r : List Char} (h : tagMatch l = true) :
    tagMatch (l ++ r) = true := by
  cases l with
  | nil => cases h
  | cons a t =>
    rw [List.cons_append]
    simp only [tagMatch, Bool.and_eq_true, List.contains, List.elem_eq_mem,
      decide_eq_true_eq] at h ⊢
    exact ⟨h.1, List.mem_append_left _ h.2⟩

theorem tagFree_append_right :
    ∀ l r : List Char, tagFree (l ++ r) = true → tagFree r = true := by
  intro l
  induction l with
  | nil => intro r h; exact h
  | cons c l ih =>
    intro r h
    simp only [List.cons_append, tagFree, Bool.and_eq_true] at h
    exact ih r h.2

theorem tagFree_append_left :
    ∀ l r : List Char, tagFree (l ++ r) = true → tagFree l = true := by
  intro l
  induction l with
  | nil => intro _ _; rfl
  | cons c l ih =>
    intro r h
    simp only [List.cons_append, tagFree, Bool.and_eq_true] at h
    simp only [tagFree, Bool.and_eq_true]
    refine ⟨?_, ih r h.2⟩
    cases htm : tagMatch l with
    | false => simp [htm]
    | true =>
      have hlr := tagMatch_append (r := r) htm
      have h1 := h.1
      rw [List.append_eq, hlr] at h1
      simp only [Bool.and_true] at h1
      simpa [htm] using h1

theorem spacesNorm_append {l m r : List Char} (h : SpacesNorm (l ++ m ++ r)) :
    SpacesNorm m := by
  intro a ha hsp
  exact h a (List.mem_append_left _ (List.mem_append_right _ ha)) hsp

theorem noAdj_tail {c : Char} {l : List Char} (h : NoAdj (c :: l)) : NoAdj l := by
  cases l with
  | nil => trivial
  | cons d t => exact h.2

theorem noAdj_append_right :
    ∀ l r : List Char, NoAdj (l ++ r) → NoAdj r := by
  intro l
  induction l with
  | nil => intro r h; exact h
  | cons c l ih => intro r h; exact ih r (noAdj_tail (by simpa using h))

theorem noAdj_append_left :
    ∀ l r : List Char, NoAdj (l ++ r) → NoAdj l := by
  intro l
  induction l with
  | nil => intro _ _; trivial
  | cons c l ih =>
    intro r h
    simp only [List.cons_append] at h
    cases l with
    | nil => trivial
    | cons d t =>
      simp only [List.cons_append] at h
      exact ⟨h.1, ih r h.2⟩

theorem tagFree_infix {m cs : List Char} (h : ∃ s t, s ++ m ++ t = cs)
    (hc : tagFree cs = true) : tagFree m = true := by
  rcases h with ⟨s, t, rfl⟩
  exact tagFree_append_left _ _ (tagFree_append_right s _ (by simpa using hc))

theorem noAdj_infix {m cs : List Char} (h : ∃ s t, s ++ m ++ t = cs)
    (hc : NoAdj cs) : NoAdj m := by
  rcases h with ⟨s, t, rfl⟩
  exact noAdj_append_left _ _ (noAdj_append_right s _ (by simpa using hc))

theorem spacesNorm_infix {m cs : List Char} (h : ∃ s t, s ++ m ++ t = cs)
    (hc : SpacesNorm cs) : SpacesNorm m := by
  rcases h with ⟨s, t, rfl⟩
  exact spacesNorm_append hc

theorem notMem_collapseWs {a : Char} (ha : a ≠ ' ') {cs : List Char}
    (h : a ∉ cs) : a ∉ collapseWs cs := by
  intro hmem
  rcases mem_collapseWs cs a hmem with h1 | h1
  · exact ha h1
  · exact h h1.1

theorem tagFree_singleton (x : Char) : tagFree [x] = true := by
  simp [tagFree, tagMatch]

theorem tagFree_tail {c : Char} {cs : List Char}
    (h : tagFree (c :: cs) = true) : tagFree cs = true :=
  (Bool.and_eq_true _ _ |>.mp h).2

theorem isPySpace_gt : isPySpace '>' = false := by decide

theorem tagFree_collapseWs : ∀ cs, tagFree cs = true →
    tagFree (collapseWs cs) = true := by
  intro cs
  induction cs with
  | nil => intro _; rfl
  | cons c cs ih =>
    intro h
    cases cs with
    | nil =>
      by_cases hc : isPySpace c = true
      · simp only [collapseWs, if_pos hc]
        exact tagFree_singleton _
      · simp only [collapseWs, if_neg hc]
        exact tagFree_singleton _
    | cons d cs' =>
      have hTail : tagFree (d :: cs') = true := tagFree_tail h
      by_cases hc : isPySpace c = true
      · by_cases hd : isPySpace d = true
        · simpa only [collapseWs, if_pos hc, if_pos hd] using ih hTail
        · simp only [collapseWs, if_pos hc, if_neg hd, tagFree,
            Bool.and_eq_true]
          refine ⟨by simp, ih hTail⟩
      · simp only [collapseWs, if_neg hc, tagFree, Bool.and_eq_true]
        refine ⟨?_, ih hTail⟩
        by_cases hlt : c = '<'
        · have hb : (decide (c = '<') && tagMatch (d :: cs')) = false := by
            cases hx : (decide (c = '<') && tagMatch (d :: cs'))
            · rfl
            · exfalso
              have h1 := (Bool.and_eq_true _ _ |>.mp h).1
              rw [hx] at h1
              exact absurd h1 (by decide)
          have hm : tagMatch (d :: cs') = false := by
            subst hlt
            simpa using hb
          have hcm : tagMatch (collapseWs (d :: cs')) = false := by
            simp only [tagMatch, Bool.and_eq_false_iff,
              decide_eq_false_iff_not, Decidable.not_not] at hm
            rcases hm with hm | hm
            · subst hm
              rcases collapseWs_cons_of_not_space (d := '>') (by decide)
                cs' with ⟨t, ht⟩
              rw [ht]
              simp [tagMatch]
            · by_cases hdg : d = '>'
              · subst hdg
                rcases collapseWs_cons_of_not_space (d := '>') (by decide)
                  cs' with ⟨t, ht⟩
                rw [ht]
                simp [tagMatch]
              · have hno : '>' ∉ (d :: cs' : List Char) := by
                  intro hx
                  rcases List.mem_cons.mp hx with hx | hx
                  · exact hdg hx.symm
                  · simp only [List.contains, List.elem_eq_mem,
                      decide_eq_false_iff_not] at hm
                    exact hm hx
                exact tagMatch_eq_false_of_not_mem
                  (notMem_collapseWs (by decide) hno)
          simp [hcm]
        · simp [hlt]

theorem stripEnds_eq (cs : List Char) :
    stripEnds cs = List.rdropWhile isPySpace (cs.dropWhile isPySpace) := rfl

theorem stripEnds_decomp (cs : List Char) :
    ∃ s t, s ++ stripEnds cs ++ t = cs := by
  obtain ⟨s, hs⟩ := List.dropWhile_suffix (l := cs) isPySpace
  obtain ⟨t, ht⟩ := List.rdropWhile_prefix isPySpace (cs.dropWhile isPySpace)
  refine ⟨s, t, ?_⟩
  rw [List.append_assoc, stripEnds_eq, ht, hs]

theorem stripEnds_idem (cs : List Char) :
    stripEnds (stripEnds cs) = stripEnds cs := by
  rw [stripEnds_eq cs, stripEnds_eq]
  have hx : (cs.dropWhile isPySpace).dropWhile isPySpace =
      cs.dropWhile isPySpace := List.dropWhile_idempotent _ _
  obtain ⟨t, ht⟩ := List.rdropWhile_prefix isPySpace (cs.dropWhile isPySpace)
  have hdw : (List.rdropWhile isPySpace
      (cs.dropWhile isPySpace)).dropWhile isPySpace =
      List.rdropWhile isPySpace (cs.dropWhile isPySpace) := by
    cases hy : List.rdropWhile isPySpace (cs.dropWhile isPySpace) with
    | nil => rfl
    | cons a ys =>
      rw [hy] at ht
      have hxa : cs.dropWhile isPySpace = a :: (ys ++ t) := by
        rw [← ht]
        simp
      have ha : isPySpace a = false := by
        cases hq : isPySpace a with
        | false => rfl
        | true =>
          exfalso
          have := hx
          rw [hxa] at this
          rw [List.dropWhile_cons_of_pos hq] at this
          have hlen := congrArg List.length this
          have hle : (List.dropWhile isPySpace (ys ++ t)).length ≤
              (ys ++ t).length :=
            (List.dropWhile_suffix isPySpace).sublist.length_le
          simp only [List.length_cons] at hlen
          omega
      rw [List.dropWhile_cons_of_neg (by simp [ha])]
  rw [hdw, List.rdropWhile_idempotent]

/-- `clean_text` is idempotent: a second application is the identity. -/
theorem cleanText_idem (s : String) : cleanText (cleanText s) = cleanText s := by
  by_cases hs : s = ""
  · subst hs; rfl
  · have hstep : cleanText s =
        ⟨stripEnds (collapseWs (stripTags s.data))⟩ := by
      rw [cleanText, if_neg hs]
    by_cases h2 : cleanText s = ""
    · rw [h2]
      rfl
    · rw [hstep] at h2 ⊢
      rw [cleanText, if_neg h2]
      have hdata : (String.mk (stripEnds (collapseWs (stripTags s.data)))).data
          = stripEnds (collapseWs (stripTags s.data)) := rfl
      rw [hdata]
      have hdec := stripEnds_decomp (collapseWs (stripTags s.data))
      have htf : tagFree (stripEnds (collapseWs (stripTags s.data))) = true :=
        tagFree_infix hdec (tagFree_collapseWs _ (tagFree_stripTags _))
      have hsn : SpacesNorm (stripEnds (collapseWs (stripTags s.data))) :=
        spacesNorm_infix hdec (spacesNorm_collapseWs _)
      have hna : NoAdj (stripEnds (collapseWs (stripTags s.data))) :=
        noAdj_infix hdec (noAdj_collapseWs _)
      rw [stripTags_of_tagFree _ htf, collapseWs_eq_self _ hsn hna,
        stripEnds_idem]

/-! ### Record shapes

A raw post/comment is a Python dict; fields whose key-presence matters are
`Option`-valued (with `none` for a missing key), fields used only through
`.get(key, '')` are plain strings with `""` for a missing key. -/

/-- A loosely-typed vote value as found in raw comment dicts. -/
inductive PyVal where
  | vint (n : Int)
  | vstr (s : String)
  | vnone
deriving DecidableEq

def digitsToNatAux : List Char → Nat → Option Nat
  | [], acc => some acc
  | c :: cs, acc =>
    if c.isDigit then digitsToNatAux cs (acc * 10 + (c.toNat - 48)) else none

/-- Python `int(s)` on a string: optional surrounding whitespace, optional
sign, one or more ASCII digits; `none` when the parse fails. -/
def pyParseInt (s : String) : Option Int :=
  match stripEnds s.data with
  | '-' :: rest =>
    if rest = [] then none else (digitsToNatAux rest 0).map (fun n => -(n : Int))
  | '+' :: rest =>
    if rest = [] then none else (digitsToNatAux rest 0).map (fun n => (n : Int))
  | rest =>
    if rest = [] then none else (digitsToNatAux rest 0).map (fun n => (n : Int))

/-- `int(v)` under `try/except (ValueError, TypeError)` with fallback `0`
(`data_cleaner.py::DataCleaner._clean_comments`). -/
def coerceVote : PyVal → Int
  | .vint n => n
  | .vstr s => (pyParseInt s).getD 0
  | .vnone => 0

structure CommentRec where
  content : Option String
  upvotes : Option PyVal
  downvotes : Option PyVal
deriving DecidableEq

structure PostRec where
  url : String
  platform : String
  title : Option String
  content : Option String
  author : String
  created_at : String
  comments : List CommentRec
deriving DecidableEq

/-- The `DataCleaner.stats` dict. -/
structure CleanStats where
  total_posts : Nat
  removed_duplicates : Nat
  cleaned_comments : Nat
  invalid_removed : Nat
deriving DecidableEq

/-- Truthiness of `comment.get('content')` / `post.get('title')`. -/
def optTruthy : Option String → Bool
  | none => false
  | some s => decide (s ≠ "")

/-- Coerce both vote fields of a comment whose keys are present. -/
def coerceVotes (c : CommentRec) : CommentRec :=
  { c with upvotes := c.upvotes.map (fun v => .vint (coerceVote v)),
           downvotes := c.downvotes.map (fun v => .vint (coerceVote v)) }

/-- Embeds `DataCleaner._clean_comments`: clean each content, drop comments
whose content is missing or empty after cleaning, coerce vote fields. -/
def cleanComments : List CommentRec → List CommentRec
  | [] => []
  | c :: cs =>
    let c1 : CommentRec := { c with content := c.content.map cleanText }
    if optTruthy c1.content then coerceVotes c1 :: cleanComments cs
    else cleanComments cs

/-- Stage 1 of `DataCleaner._clean_with_python` (lines 131-143): URL-keyed
dedup.  A post with a falsy (empty) URL, or with an already-seen URL, is
dropped and counted in `removed_duplicates`. -/
def dedupAux : List String → List PostRec → List PostRec × Nat
  | _, [] => ([], 0)
  | seen, p :: rest =>
    if p.url ≠ "" && !(seen.contains p.url) then
      let r := dedupAux (p.url :: seen) rest
      (p :: r.1, r.2)
    else
      let r := dedupAux seen rest
      (r.1, r.2 + 1)

/-- Text cleaning applied to one post (title and content, when present). -/
def cleanPostText (p : PostRec) : PostRec :=
  { p with title := p.title.map cleanText, content := p.content.map cleanText }

/-- Comment cleaning applied to one post (`if 'comments' in post and
post['comments']:`). -/
def cleanPostComments (p : PostRec) : PostRec :=
  if p.comments.isEmpty then p
  else { p with comments := cleanComments p.comments }

/-- Stage 2 of `DataCleaner._clean_with_python` (lines 145-165): clean text
fields, drop records with a falsy title or URL (counting them in
`invalid_removed`), clean comments (accumulating `cleaned_comments`).
Returns `(cleaned, invalid_removed, cleaned_comments)`. -/
def cleanStage : List PostRec → List PostRec × Nat × Nat
  | [] => ([], 0, 0)
  | p :: rest =>
    let p1 := cleanPostText p
    let r := cleanStage rest
    if optTruthy p1.title && decide (p1.url ≠ "") then
      let cc := if p1.comments.isEmpty then 0
        else (cleanComments p1.comments).length
      (cleanPostComments p1 :: r.1, r.2.1, r.2.2 + cc)
    else
      (r.1, r.2.1 + 1, r.2.2)

/-- `DataCleaner.clean_posts` on a fresh cleaner when Polars is unavailable:
sets `total_posts` then runs `_clean_with_python`. -/
def cleanWithPython (posts : List PostRec) : List PostRec × CleanStats :=
  let d := dedupAux [] posts
  let s := cleanStage d.1
  (s.1, { total_posts := posts.length, removed_duplicates := d.2,
          cleaned_comments := s.2.2, invalid_removed := s.2.1 })

/-- The `title` column of the Polars frame: `post.get('title', '')` mapped
through `clean_text(str(x)) if x else ''`. -/
def dfTitle (p : PostRec) : String :=
  match p.title with
  | none => ""
  | some t => if t = "" then "" else cleanText t

/-- `df.unique(subset=['url'], keep='first')` on `(url, title)` rows. -/
def ukfRows : List String → List (String × String) → List (String × String)
  | _, [] => []
  | seen, r :: rest =>
    if seen.contains r.1 then ukfRows seen rest
    else r :: ukfRows (r.1 :: seen) rest

/-- Step 4 of `DataCleaner._clean_with_polars` (lines 103-115): walk the
ORIGINAL post list and keep every post whose URL is in `cleaned_urls`,
cleaning its comments.  Returns the kept posts and the `cleaned_comments`
tally. -/
def polarsCollect (cleanedUrls : List String) :
    List PostRec → List PostRec × Nat
  | [] => ([], 0)
  | p :: rest =>
    let r := polarsCollect cleanedUrls rest
    if cleanedUrls.contains p.url then
      (cleanPostComments p :: r.1,
        r.2 + (if p.comments.isEmpty then 0
          else (cleanComments p.comments).length))
    else r

/-- The body of `_clean_with_polars` (lines 53-117) on a batch whose frame
has its columns, i.e. a NON-EMPTY batch (see `cleanPostsPolars` for the
empty-batch error path): dedup the frame by URL keeping the first row,
filter out rows with an empty cleaned title or empty URL, then re-collect
from the ORIGINAL list every post whose URL survived. -/
def cleanWithPolars (posts : List PostRec) : List PostRec × CleanStats :=
  let rows := posts.map (fun p => (p.url, dfTitle p))
  let uniq := ukfRows [] rows
  let dups := rows.length - uniq.length
  let filtered := uniq.filter (fun r => decide (r.2 ≠ "") && decide (r.1 ≠ ""))
  let invalid := uniq.length - filtered.length
  let cleanedUrls := filtered.map Prod.fst
  let out := polarsCollect cleanedUrls posts
  (out.1, { total_posts := posts.length, removed_duplicates := dups,
            cleaned_comments := out.2, invalid_removed := invalid })

/-- `DataCleaner.clean_posts` on a fresh cleaner when Polars is available.
On an EMPTY batch, `pl.DataFrame([])` is a zero-column frame, so
`df.unique(subset=['url'])` and `with_columns(pl.col('title'))` raise
`ColumnNotFoundError`; that error path is `none`.  A non-empty batch
carries every column (each row dict is built with all six keys), and the
run returns the `cleanWithPolars` body. -/
def cleanPostsPolars (posts : List PostRec) :
    Option (List PostRec × CleanStats) :=
  if posts.isEmpty then none else some (cleanWithPolars posts)

/-- A sample raw post used in concrete scenarios. -/
def postU (u t : String) : PostRec :=
  { url := u, platform := "zhihu", title := some t, content := none,
    author := "", created_at := "", comments := [] }

/-! ### Conservation accounting for the pure-Python cleaning path -/

theorem dedupAux_length :
    ∀ (posts : List PostRec) (seen : List String),
      (dedupAux seen posts).1.length + (dedupAux seen posts).2 =
        posts.length := by
  intro posts
  induction posts with
  | nil => intro seen; rfl
  | cons p rest ih =>
    intro seen
    simp only [dedupAux]
    split
    · have := ih (p.url :: seen)
      simp only [List.length_cons]
      omega
    · have := ih seen
      simp only [List.length_cons]
      omega

theorem cleanStage_length :
    ∀ posts : List PostRec,
      (cleanStage posts).1.length + (cleanStage posts).2.1 = posts.length := by
  intro posts
  induction posts with
  | nil => rfl
  | cons p rest ih =>
    simp only [cleanStage]
    split
    · simp only [List.length_cons]
      omega
    · simp only [List.length_cons]
      omega

/-- The Python fallback path does satisfy the conservation law. -/
theorem cleanWithPython_conservation (posts : List PostRec) :
    (cleanWithPython posts).2.total_posts =
      (cleanWithPython posts).1.length +
        (cleanWithPython posts).2.removed_duplicates +
        (cleanWithPython posts).2.invalid_removed := by
  have h1 := dedupAux_length posts []
  have h2 := cleanStage_length (dedupAux [] posts).1
  simp only [cleanWithPython]
  omega

/-! ### Deduplication: first occurrence per (raw) URL -/

theorem strContains_iff {l : List String} {a : String} :
    l.contains a = true ↔ a ∈ l := by
  simp [List.contains, List.elem_eq_mem]

/-- Comparison definition following the spec's words: "First occurrence
wins; all later duplicates are dropped". -/
def specFirstOcc : List String → List PostRec → List PostRec
  | _, [] => []
  | seen, p :: rest =>
    if seen.contains p.url then specFirstOcc seen rest
    else p :: specFirstOcc (p.url :: seen) rest

theorem specFirstOcc_length_le :
    ∀ (posts : List PostRec) (seen : List String),
      (specFirstOcc seen posts).length ≤ posts.length := by
  intro posts
  induction posts with
  | nil => intro seen; exact Nat.le_refl _
  | cons p rest ih =>
    intro seen
    simp only [specFirstOcc]
    split
    · exact Nat.le_succ_of_le (ih seen)
    · simpa using Nat.succ_le_succ (ih (p.url :: seen))

theorem dedupAux_eq_specFirstOcc :
    ∀ (posts : List PostRec) (seen : List String),
      (∀ p ∈ posts, p.url ≠ "") →
      dedupAux seen posts =
        (specFirstOcc seen posts,
          posts.length - (specFirstOcc seen posts).length) := by
  intro posts
  induction posts with
  | nil => intro seen _; rfl
  | cons p rest ih =>
    intro seen h
    have hp : p.url ≠ "" := h p (List.mem_cons_self _ _)
    have hrest : ∀ q ∈ rest, q.url ≠ "" :=
      fun q hq => h q (List.mem_cons_of_mem _ hq)
    by_cases hc : seen.contains p.url = true
    · have hm : p.url ∈ seen := strContains_iff.mp hc
      simp only [dedupAux, specFirstOcc, if_pos hc]
      rw [if_neg (by simp [hm])]
      rw [ih seen hrest]
      have hle := specFirstOcc_length_le rest seen
      simp only [List.length_cons]
      congr 1
      omega
    · simp only [dedupAux, specFirstOcc, if_neg hc]
      rw [if_pos (by
        simp [hp]
        exact fun hmem => hc (strContains_iff.mpr hmem))]
      rw [ih (p.url :: seen) hrest]
      have hle := specFirstOcc_length_le rest (p.url :: seen)
      simp only [List.length_cons]
      congr 1
      omega

/-! ### Python `round(x, d)` (banker's rounding) over exact rationals -/

/-- Round half to even, to the nearest integer. -/
def rhe (q : ℚ) : ℤ :=
  if q - ⌊q⌋ < 1/2 then ⌊q⌋
  else if 1/2 < q - ⌊q⌋ then ⌊q⌋ + 1
  else if ⌊q⌋ % 2 = 0 then ⌊q⌋ else ⌊q⌋ + 1

/-- Python `round(q, d)` idealised over exact rationals. -/
def pyRound (d : Nat) (q : ℚ) : ℚ :=
  (rhe (q * 10 ^ d) : ℚ) / 10 ^ d

theorem rhe_ge_floor (q : ℚ) : ⌊q⌋ ≤ rhe q := by
  unfold rhe
  split_ifs <;> omega

theorem rhe_le_floor_add_one (q : ℚ) : rhe q ≤ ⌊q⌋ + 1 := by
  unfold rhe
  split_ifs <;> omega

theorem rhe_intCast (z : ℤ) : rhe (z : ℚ) = z := by
  unfold rhe
  rw [Int.floor_intCast]
  rw [if_pos (by norm_num)]

theorem rhe_le_of_le {q : ℚ} {B : ℤ} (h : q ≤ (B : ℚ)) : rhe q ≤ B := by
  rcases eq_or_lt_of_le h with he | hlt
  · rw [he, rhe_intCast]
  · have hf : ⌊q⌋ < B := Int.floor_lt.mpr hlt
    have := rhe_le_floor_add_one q
    omega

theorem le_rhe_of_le {q : ℚ} {B : ℤ} (h : (B : ℚ) ≤ q) : B ≤ rhe q := by
  have hf : B ≤ ⌊q⌋ := Int.le_floor.mpr h
  have := rhe_ge_floor q
  omega

theorem pyRound_nonneg (d : Nat) {q : ℚ} (h : 0 ≤ q) : 0 ≤ pyRound d q := by
  unfold pyRound
  have h1 : ((0 : ℤ) : ℚ) ≤ q * 10 ^ d := by positivity
  have h2 := le_rhe_of_le h1
  have h3 : (0 : ℚ) ≤ (rhe (q * 10 ^ d) : ℚ) := by exact_mod_cast h2
  positivity

theorem pyRound_le {d : Nat} {q : ℚ} {B : ℤ} (h : q ≤ (B : ℚ)) :
    pyRound d q ≤ (B : ℚ) := by
  unfold pyRound
  have h1 : q * 10 ^ d ≤ ((B * 10 ^ d : ℤ) : ℚ) := by
    push_cast
    have hm : (0 : ℚ) < 10 ^ d := by positivity
    exact mul_le_mul_of_nonneg_right h (le_of_lt hm)
  have h2 := rhe_le_of_le h1
  have h3 : (rhe (q * 10 ^ d) : ℚ) ≤ ((B * 10 ^ d : ℤ) : ℚ) := by
    exact_mod_cast h2
  rw [div_le_iff (by positivity)]
  push_cast at h3 ⊢
  linarith

/-! ### Quality analyzer (`analytics/quality_analyzer.py`) -/

def MIN_COMMENTS_PER_POST : Nat := 50

def MIN_POSTS_REQUIRED : Nat := 18

structure QualityChecks where
  meets_min_posts : Bool
  meets_min_comments : Bool
  has_time_info : ℚ
  has_author_info : ℚ
  avg_content_length : ℚ
  overall_quality_score : ℚ
deriving DecidableEq

/-- Embeds `QualityAnalyzer._perform_quality_checks` (lines 146-167):
two threshold booleans, two metadata-completeness percentages, the average
content length, and the composite 30/30/20/20 score rounded to 2 decimal
places. -/
def qualityChecks (posts : List PostRec) : QualityChecks :=
  let n := posts.length
  let meets_min_posts := decide (n ≥ MIN_POSTS_REQUIRED)
  let meets_min_comments := decide
    ((posts.countP fun p =>
      decide (p.comments.length ≥ MIN_COMMENTS_PER_POST)) ≥
        MIN_POSTS_REQUIRED)
  let has_time_info : ℚ := if n = 0 then 0
    else ((posts.countP fun p => decide (p.created_at ≠ "")) : ℚ) / n * 100
  let has_author_info : ℚ := if n = 0 then 0
    else ((posts.countP fun p => decide (p.author ≠ "")) : ℚ) / n * 100
  let avg_content_length : ℚ := if n = 0 then 0
    else ((posts.map fun p => ((p.content.getD "").length : ℚ)).sum) / n
  let score : ℚ :=
    (if meets_min_posts then 30 else 0) +
      (if meets_min_comments then 30 else 0) +
      min (has_time_info * (2/10)) 20 + min (has_author_info * (2/10)) 20
  { meets_min_posts := meets_min_posts,
    meets_min_comments := meets_min_comments,
    has_time_info := has_time_info,
    has_author_info := has_author_info,
    avg_content_length := avg_content_length,
    overall_quality_score := pyRound 2 score }

theorem qualityChecks_has_time_info (posts : List PostRec) :
    (qualityChecks posts).has_time_info = if posts.length = 0 then 0
      else ((posts.countP fun p => decide (p.created_at ≠ "")) : ℚ) /
        posts.length * 100 := rfl

theorem qualityChecks_has_author_info (posts : List PostRec) :
    (qualityChecks posts).has_author_info = if posts.length = 0 then 0
      else ((posts.countP fun p => decide (p.author ≠ "")) : ℚ) /
        posts.length * 100 := rfl

theorem qualityChecks_score (posts : List PostRec) :
    (qualityChecks posts).overall_quality_score =
      pyRound 2
        ((if (qualityChecks posts).meets_min_posts then (30 : ℚ) else 0) +
          (if (qualityChecks posts).meets_min_comments then (30 : ℚ) else 0)
          + min ((qualityChecks posts).has_time_info * (2/10)) 20 +
          min ((qualityChecks posts).has_author_info * (2/10)) 20) := rfl

theorem qualityChecks_time_nonneg (posts : List PostRec) :
    0 ≤ (qualityChecks posts).has_time_info := by
  rw [qualityChecks_has_time_info]
  split
  · exact le_refl 0
  · positivity

theorem qualityChecks_author_nonneg (posts : List PostRec) :
    0 ≤ (qualityChecks posts).has_author_info := by
  rw [qualityChecks_has_author_info]
  split
  · exact le_refl 0
  · positivity

/-- The raw (pre-rounding) composite score lies in `[0, 100]`. -/
theorem qualityChecks_raw_bounds (posts : List PostRec) :
    (0 : ℚ) ≤
        (if (qualityChecks posts).meets_min_posts then (30 : ℚ) else 0) +
        (if (qualityChecks posts).meets_min_comments then (30 : ℚ) else 0) +
        min ((qualityChecks posts).has_time_info * (2/10)) 20 +
        min ((qualityChecks posts).has_author_info * (2/10)) 20 ∧
      (if (qualityChecks posts).meets_min_posts then (30 : ℚ) else 0) +
        (if (qualityChecks posts).meets_min_comments then (30 : ℚ) else 0) +
        min ((qualityChecks posts).has_time_info * (2/10)) 20 +
        min ((qualityChecks posts).has_author_info * (2/10)) 20 ≤ 100 := by
  have ht := qualityChecks_time_nonneg posts
  have ha := qualityChecks_author_nonneg posts
  have h1 : (0 : ℚ) ≤ min ((qualityChecks posts).has_time_info * (2/10)) 20
    := le_min (by positivity) (by norm_num)
  have h2 : (0 : ℚ) ≤
      min ((qualityChecks posts).has_author_info * (2/10)) 20 :=
    le_min (by positivity) (by norm_num)
  have h3 : min ((qualityChecks posts).has_time_info * (2/10)) 20 ≤ 20 :=
    min_le_right _ _
  have h4 : min ((qualityChecks posts).has_author_info * (2/10)) 20 ≤ 20 :=
    min_le_right _ _
  constructor
  · split_ifs <;> linarith
  · split_ifs <;> linarith

/-- **C6** (amended): `overall_quality_score` equals the 30/30/20/20
composite — 30 per satisfied threshold boolean plus each percentage scaled
by 0.2 and capped at 20 — rounded to 2 decimal places; it always lies in
`[0, 100]`; and it is exactly 60 when both boolean checks hold and both
metadata percentages are 0. -/
theorem C6_quality_score (posts : List PostRec) :
    (qualityChecks posts).overall_quality_score =
      pyRound 2
        ((if (qualityChecks posts).meets_min_posts then (30 : ℚ) else 0) +
          (if (qualityChecks posts).meets_min_comments then (30 : ℚ) else 0)
          + min ((qualityChecks posts).has_time_info * (2/10)) 20 +
          min ((qualityChecks posts).has_author_info * (2/10)) 20) ∧
    (0 ≤ (qualityChecks posts).overall_quality_score ∧
      (qualityChecks posts).overall_quality_score ≤ 100) ∧
    ((qualityChecks posts).meets_min_posts = true →
      (qualityChecks posts).meets_min_comments = true →
      (qualityChecks posts).has_time_info = 0 →
      (qualityChecks posts).has_author_info = 0 →
      (qualityChecks posts).overall_quality_score = 60) := by
  refine ⟨qualityChecks_score posts, ⟨?_, ?_⟩, ?_⟩
  · rw [qualityChecks_score]
    exact pyRound_nonneg 2 (qualityChecks_raw_bounds posts).1
  · rw [qualityChecks_score]
    have hb := (qualityChecks_raw_bounds posts).2
    have := pyRound_le (d := 2) (B := 100) (by exact_mod_cast hb)
    exact_mod_cast this
  · intro h1 h2 h3 h4
    rw [qualityChecks_score, h1, h2, h3, h4]
    have h60 : pyRound 2 (60 : ℚ) = 60 := by
      unfold pyRound
      have hc : ((60 : ℚ) * 10 ^ 2) = ((6000 : ℤ) : ℚ) := by norm_num
      rw [hc, rhe_intCast]
      norm_num
    have hmin : min ((0 : ℚ) * (2/10)) 20 = 0 := by norm_num
    rw [hmin]
    norm_num
    exact h60

/-- A valid post with 50 comments, no time info and no author info. -/
def qPost : PostRec :=
  { url := "u", platform := "zhihu", title := some "t", content := none,
    author := "", created_at := "",
    comments := List.replicate 50 ⟨some "c", none, none⟩ }

def qCorpus : List PostRec := List.replicate 18 qPost

/-- Witness for `C6_quality_score`: 18 posts with 50 comments each, 0%
time/author completeness, scoring exactly 60. -/
theorem C6_quality_score_witness :
    ((qualityChecks qCorpus).meets_min_posts = true ∧
      (qualityChecks qCorpus).meets_min_comments = true ∧
      (qualityChecks qCorpus).has_time_info = 0 ∧
      (qualityChecks qCorpus).has_author_info = 0) ∧
    (qualityChecks qCorpus).overall_quality_score = 60 := by
  have h1 : (qualityChecks qCorpus).meets_min_posts = true := by decide
  have h2 : (qualityChecks qCorpus).meets_min_comments = true := by decide
  have h3 : (qualityChecks qCorpus).has_time_info = 0 := by
    rw [qualityChecks_has_time_info]
    rw [if_neg (by decide)]
    have hc : (qCorpus.countP fun p => decide (p.created_at ≠ "")) = 0 := by
      decide
    rw [hc]
    norm_num
  have h4 : (qualityChecks qCorpus).has_author_info = 0 := by
    rw [qualityChecks_has_author_info]
    rw [if_neg (by decide)]
    have hc : (qCorpus.countP fun p => decide (p.author ≠ "")) = 0 := by
      decide
    rw [hc]
    norm_num
  exact ⟨⟨h1, h2, h3, h4⟩, (C6_quality_score qCorpus).2.2 h1 h2 h3 h4⟩

def qCorpus3 : List PostRec :=
  [{ postU "a" "t" with created_at := "2024-01-01" },
    postU "b" "t", postU "c" "t"]

/-- **C6** (counterexample): on a 3-post corpus with one time-annotated
post the code returns `round(20/3, 2) = 6.67`, not the exact composite
`20/3`, so the claimed equality with the un-rounded sum fails. -/
theorem C6_rounding_counterexample :
    (qualityChecks qCorpus3).overall_quality_score = 667/100 ∧
    (qualityChecks qCorpus3).overall_quality_score ≠
      (if (qualityChecks qCorpus3).meets_min_posts then (30 : ℚ) else 0) +
        (if (qualityChecks qCorpus3).meets_min_comments then (30 : ℚ)
          else 0) +
        min ((qualityChecks qCorpus3).has_time_info * (2/10)) 20 +
        min ((qualityChecks qCorpus3).has_author_info * (2/10)) 20 := by
  have hb1 : (qualityChecks qCorpus3).meets_min_posts = false := by decide
  have hb2 : (qualityChecks qCorpus3).meets_min_comments = false := by decide
  have ht : (qualityChecks qCorpus3).has_time_info = 100/3 := by
    rw [qualityChecks_has_time_info, if_neg (by decide)]
    have hc : (qCorpus3.countP fun p => decide (p.created_at ≠ "")) = 1 := by
      decide
    have hl : qCorpus3.length = 3 := by decide
    rw [hc, hl]
    norm_num
  have ha : (qualityChecks qCorpus3).has_author_info = 0 := by
    rw [qualityChecks_has_author_info, if_neg (by decide)]
    have hc : (qCorpus3.countP fun p => decide (p.author ≠ "")) = 0 := by
      decide
    rw [hc]
    norm_num
  have hraw : (if (qualityChecks qCorpus3).meets_min_posts then (30 : ℚ)
        else 0) +
      (if (qualityChecks qCorpus3).meets_min_comments then (30 : ℚ) else 0)
      + min ((qualityChecks qCorpus3).has_time_info * (2/10)) 20 +
      min ((qualityChecks qCorpus3).has_author_info * (2/10)) 20 = 20/3 := by
    rw [hb1, hb2, ht, ha]
    rw [min_eq_left (by norm_num), min_eq_left (by norm_num)]
    norm_num
  have hfloor : ⌊(20 : ℚ)/3 * 10 ^ 2⌋ = 666 := by
    rw [Int.floor_eq_iff]
    norm_num
  have hscore : (qualityChecks qCorpus3).overall_quality_score = 667/100 := by
    rw [qualityChecks_score, hraw]
    unfold pyRound rhe
    rw [hfloor]
    rw [if_neg (by norm_num), if_pos (by norm_num)]
    norm_num
  exact ⟨hscore, by rw [hscore, hraw]; norm_num⟩

/-! ### Sentiment scoring (`scripts/text_analysis.py::analyze_sentiment`) -/

/-- `SENTIMENT_WORDS['positive'].get(language, [])`. -/
def positiveLexicon : String → List String
  | "en" =>
    ["good", "great", "excellent", "amazing", "awesome", "fantastic",
     "wonderful", "helpful", "useful", "beneficial", "opportunity",
     "opportunities", "advantage", "improve", "better", "best", "love",
     "like", "enjoy", "happy", "excited", "optimistic", "positive", "hope",
     "hopeful", "promising", "success", "successful", "efficient",
     "productivity", "innovative", "creative", "smart", "intelligent",
     "powerful", "capable", "effective", "valuable", "progress", "advance",
     "growth", "assist", "assistance", "support", "enhance", "boost",
     "augment", "empower"]
  | "zh" =>
    ["好", "很好", "非常好", "优秀", "出色", "棒", "厉害", "有用", "有帮助",
     "有益", "机会", "优势", "改善", "提升", "进步", "喜欢", "开心", "兴奋",
     "乐观", "积极", "希望", "有前途", "成功", "高效", "创新", "创造", "强大",
     "有效", "有价值", "辅助", "支持", "增强", "赋能", "解放", "效率"]
  | _ => []

/-- `SENTIMENT_WORDS['negative'].get(language, [])`. -/
def negativeLexicon : String → List String
  | "en" =>
    ["bad", "terrible", "awful", "horrible", "worst", "hate", "dislike",
     "angry", "sad", "worried", "worry", "concern", "concerned", "fear",
     "afraid", "scary", "threat", "threaten", "threatening", "danger",
     "dangerous", "risk", "risky", "replace", "replacement", "obsolete",
     "useless", "worthless", "unemployed", "unemployment", "layoff",
     "layoffs", "fired", "lose", "lost", "losing", "pessimistic",
     "negative", "doom", "doomed", "fail", "failure", "difficult", "hard",
     "struggle", "struggling", "crisis", "problem", "problems", "issue",
     "issues", "decline", "decrease", "drop", "fall", "crash", "collapse"]
  | "zh" =>
    ["差", "糟糕", "可怕", "恐怖", "最差", "讨厌", "生气", "难过", "担心",
     "担忧", "焦虑", "恐惧", "害怕", "威胁", "危险", "风险", "取代", "替代",
     "淘汰", "过时", "无用", "失业", "裁员", "被裁", "失去", "悲观", "消极",
     "末日", "失败", "困难", "艰难", "挣扎", "危机", "问题", "下降", "减少",
     "崩溃", "内卷", "卷"]
  | _ => []

structure SentimentResult where
  score : ℚ
  label : String
  positive_count : Nat
  negative_count : Nat
deriving DecidableEq

/-- Embeds `analyze_sentiment` (lines 213-241): count lexicon entries
occurring as substrings of the lowercased text, score
`(pos - neg) / (pos + neg)` (0 when both counts are zero), label via the
±0.2 thresholds, and return the score rounded to 3 decimals. -/
def analyzeSentiment (text lang : String) : SentimentResult :=
  let textLower := toLowerStr text
  let pc := (positiveLexicon lang).countP fun w => strIn w textLower
  let nc := (negativeLexicon lang).countP fun w => strIn w textLower
  let total := pc + nc
  let s : ℚ := if total = 0 then 0 else ((pc : ℚ) - nc) / total
  let label := if total = 0 then "neutral"
    else if s > 2/10 then "positive"
    else if s < -(2/10) then "negative" else "neutral"
  { score := pyRound 3 s, label := label,
    positive_count := pc, negative_count := nc }

theorem pyRound_zero (d : Nat) : pyRound d 0 = 0 := by
  unfold pyRound
  have hc : ((0 : ℚ) * 10 ^ d) = ((0 : ℤ) : ℚ) := by norm_num
  rw [hc, rhe_intCast]
  norm_num

/-- **C7** (amended): `analyze_sentiment` is a pure function of
`(text, language)`; with zero total lexicon hits it returns score 0 and
label "neutral"; otherwise the returned score is the ratio
`(pos - neg)/(pos + neg)` rounded to 3 decimal places (banker's rounding),
and the label is decided by the ±0.2 thresholds applied to the un-rounded
ratio. -/
theorem C7_sentiment (text lang : String) :
    ((positiveLexicon lang).countP
        (fun w => strIn w (toLowerStr text)) +
      (negativeLexicon lang).countP
        (fun w => strIn w (toLowerStr text)) = 0 →
      (analyzeSentiment text lang).score = 0 ∧
        (analyzeSentiment text lang).label = "neutral") ∧
    (∀ p n : Nat,
      (positiveLexicon lang).countP (fun w => strIn w (toLowerStr text)) = p
      →
      (negativeLexicon lang).countP (fun w => strIn w (toLowerStr text)) = n
      →
      p + n ≠ 0 →
      (analyzeSentiment text lang).score =
        pyRound 3 (((p : ℚ) - n) / (p + n)) ∧
      ((analyzeSentiment text lang).label = "positive" ↔
        ((p : ℚ) - n) / (p + n) > 2/10) ∧
      ((analyzeSentiment text lang).label = "negative" ↔
        ((p : ℚ) - n) / (p + n) < -(2/10)) ∧
      ((analyzeSentiment text lang).label = "neutral" ↔
        (¬((p : ℚ) - n) / (p + n) > 2/10 ∧
          ¬((p : ℚ) - n) / (p + n) < -(2/10)))) ∧
    analyzeSentiment text lang = analyzeSentiment text lang := by
  refine ⟨?_, ?_, rfl⟩
  · intro hz
    simp only [analyzeSentiment, hz]
    norm_num [pyRound_zero]
  · intro p n hp hn hnz
    simp only [analyzeSentiment, hp, hn]
    rw [if_neg hnz, if_neg hnz]
    have hcast : ((p + n : ℕ) : ℚ) = (p : ℚ) + n := by push_cast; ring
    rw [hcast]
    by_cases hpos : ((p : ℚ) - n) / (p + n) > 2/10
    · rw [if_pos hpos]
      refine ⟨rfl, by simp [hpos], ?_, ?_⟩
      · constructor
        · intro h
          exact absurd h (by decide)
        · intro h
          linarith
      · constructor
        · intro h
          exact absurd h (by decide)
        · intro h
          exact absurd hpos h.1
    · rw [if_neg hpos]
      by_cases hneg : ((p : ℚ) - n) / (p + n) < -(2/10)
      · rw [if_pos hneg]
        refine ⟨rfl, ?_, by simp [hneg], ?_⟩
        · constructor
          · intro h
            exact absurd h (by decide)
          · intro h
            linarith
        · constructor
          · intro h
            exact absurd h (by decide)
          · intro h
            exact absurd hneg h.2
      · rw [if_neg hneg]
        refine ⟨rfl, ?_, ?_, by simp [hpos, hneg]⟩
        · constructor
          · intro h
            exact absurd h (by decide)
          · intro h
            exact absurd h hpos
        · constructor
          · intro h
            exact absurd h (by decide)
          · intro h
            exact absurd h hneg

/-- Witness for `C7_sentiment`: the text "xyz" has zero lexicon hits in
English, yielding score 0 and a neutral label. -/
theorem C7_sentiment_witness :
    ((positiveLexicon "en").countP
        (fun w => strIn w (toLowerStr "xyz")) +
      (negativeLexicon "en").countP
        (fun w => strIn w (toLowerStr "xyz")) = 0) ∧
    ((analyzeSentiment "xyz" "en").score = 0 ∧
      (analyzeSentiment "xyz" "en").label = "neutral") :=
  ⟨by decide, (C7_sentiment "xyz" "en").1 (by decide)⟩

/-- **C7** (counterexample): on the English text "good bad terrible"
(1 positive, 2 negative hits) the returned score is the ROUNDED value
`-0.333`, not the exact ratio `-1/3` the claim states. -/
theorem C7_rounding_counterexample :
    (analyzeSentiment "good bad terrible" "en").positive_count = 1 ∧
    (analyzeSentiment "good bad terrible" "en").negative_count = 2 ∧
    (analyzeSentiment "good bad terrible" "en").score = -(333/1000) ∧
    (analyzeSentiment "good bad terrible" "en").score ≠
      (((analyzeSentiment "good bad terrible" "en").positive_count : ℚ) -
        ((analyzeSentiment "good bad terrible" "en").negative_count : ℚ)) /
      (((analyzeSentiment "good bad terrible" "en").positive_count : ℚ) +
        ((analyzeSentiment "good bad terrible" "en").negative_count : ℚ)) ∧
    (analyzeSentiment "good bad terrible" "en").label = "negative" := by
  have hp : (positiveLexicon "en").countP
      (fun w => strIn w (toLowerStr "good bad terrible")) = 1 := by decide
  have hn : (negativeLexicon "en").countP
      (fun w => strIn w (toLowerStr "good bad terrible")) = 2 := by decide
  have hround : pyRound 3 (-(1/3) : ℚ) = -(333/1000) := by
    unfold pyRound rhe
    have hm : ((-(1/3) : ℚ) * 10 ^ 3) = -1000/3 := by norm_num
    rw [hm]
    have hf : ⌊(-1000/3 : ℚ)⌋ = -334 := by
      rw [Int.floor_eq_iff]
      norm_num
    rw [hf]
    rw [if_neg (by push_cast; norm_num), if_pos (by push_cast; norm_num)]
    push_cast
    norm_num
  have key : ∀ q : ℚ, q = -(1/3) → pyRound 3 q = -(333/1000) :=
    fun q hq => hq ▸ hround
  have hscore : (analyzeSentiment "good bad terrible" "en").score =
      -(333/1000) := by
    simp only [analyzeSentiment, hp, hn]
    rw [if_neg (by norm_num)]
    apply key
    push_cast
    norm_num
  have hpc : (analyzeSentiment "good bad terrible" "en").positive_count = 1
    := by decide
  have hnc : (analyzeSentiment "good bad terrible" "en").negative_count = 2
    := by decide
  have hratio :
      (((analyzeSentiment "good bad terrible" "en").positive_count : ℚ) -
        ((analyzeSentiment "good bad terrible" "en").negative_count : ℚ)) /
      (((analyzeSentiment "good bad terrible" "en").positive_count : ℚ) +
        ((analyzeSentiment "good bad terrible" "en").negative_count : ℚ)) =
      -(1/3) := by
    rw [hpc, hnc]
    norm_num
  have hlabel : (analyzeSentiment "good bad terrible" "en").label =
      "negative" := by
    simp only [analyzeSentiment, hp, hn]
    rw [if_neg (by norm_num)]
    rw [if_neg (by push_cast; norm_num), if_pos (by push_cast; norm_num)]
  refine ⟨hpc, hnc, hscore, ?_, hlabel⟩
  rw [hscore, hratio]
  norm_num

/-! ### Per-post sentiment distribution
(`analytics/text_analyzer.py::TextAnalyzer._analyze_sentiment_simple`) -/

def taPositiveKeywords : List String :=
  ["机会", "学习", "成长", "提升", "优化", "创新", "未来", "帮助", "提高",
   "进步"]

def taNegativeKeywords : List String :=
  ["失业", "淘汰", "取代", "担心", "焦虑", "困难", "危机", "威胁", "消失",
   "裁员"]

def taText (p : PostRec) : String :=
  toLowerStr (p.title.getD "" ++ " " ++ p.content.getD "")

/-- A post counts as positive when it matches strictly more positive than
negative keywords. -/
def taPosB (p : PostRec) : Bool :=
  decide (taPositiveKeywords.countP (fun kw => strIn kw (taText p)) >
    taNegativeKeywords.countP (fun kw => strIn kw (taText p)))

/-- A post counts as negative when it matches strictly more negative than
positive keywords. -/
def taNegB (p : PostRec) : Bool :=
  decide (taNegativeKeywords.countP (fun kw => strIn kw (taText p)) >
    taPositiveKeywords.countP (fun kw => strIn kw (taText p)))

structure SentimentDist where
  positive : Nat
  negative : Nat
  neutral : Nat
  positive_percentage : ℚ
  negative_percentage : ℚ
  neutral_percentage : ℚ
deriving DecidableEq

/-- Embeds `_analyze_sentiment_simple` (lines 113-151): classify each post
as positive / negative / neutral by comparing keyword-match counts, and
report counts plus percentages over the total. -/
def analyzeSentimentSimple (posts : List PostRec) : SentimentDist :=
  let positiveCount := posts.countP taPosB
  let negativeCount := posts.countP taNegB
  let neutralCount := posts.countP fun p => !taPosB p && !taNegB p
  let total := posts.length
  { positive := positiveCount, negative := negativeCount,
    neutral := neutralCount,
    positive_percentage := if total > 0
      then (positiveCount : ℚ) / total * 100 else 0,
    negative_percentage := if total > 0
      then (negativeCount : ℚ) / total * 100 else 0,
    neutral_percentage := if total > 0
      then (neutralCount : ℚ) / total * 100 else 0 }

theorem countP_three_partition {α : Type} (f g : α → Bool)
    (hex : ∀ a, f a = true → g a = false) :
    ∀ l : List α,
      l.countP f + l.countP g + l.countP (fun a => !f a && !g a) =
        l.length := by
  intro l
  induction l with
  | nil => rfl
  | cons a l ih =>
    simp only [List.countP_cons, List.length_cons]
    cases hf : f a with
    | true =>
      have hg := hex a hf
      simp [hf, hg] <;> omega
    | false =>
      cases hg : g a with
      | true => simp [hf, hg] <;> omega
      | false => simp [hf, hg] <;> omega

theorem taPosB_excl (p : PostRec) (h : taPosB p = true) : taNegB p = false
    := by
  simp only [taPosB, decide_eq_true_eq] at h
  simp only [taNegB, decide_eq_false_iff_not]
  omega

/-- **C10**: the simple sentiment distribution partitions the corpus: the
three counts are non-negative and sum to the number of posts, and for a
non-empty corpus the three percentages sum to exactly 100. -/
theorem C10_sentiment_partition (posts : List PostRec) :
    (0 ≤ (analyzeSentimentSimple posts).positive ∧
      0 ≤ (analyzeSentimentSimple posts).negative ∧
      0 ≤ (analyzeSentimentSimple posts).neutral) ∧
    (analyzeSentimentSimple posts).positive +
      (analyzeSentimentSimple posts).negative +
      (analyzeSentimentSimple posts).neutral = posts.length ∧
    (posts ≠ [] →
      (analyzeSentimentSimple posts).positive_percentage +
        (analyzeSentimentSimple posts).negative_percentage +
        (analyzeSentimentSimple posts).neutral_percentage = 100) := by
  have hpart := countP_three_partition taPosB taNegB taPosB_excl posts
  refine ⟨⟨Nat.zero_le _, Nat.zero_le _, Nat.zero_le _⟩, hpart, ?_⟩
  intro hne
  have hlen : 0 < posts.length := List.length_pos.mpr hne
  simp only [analyzeSentimentSimple]
  rw [if_pos hlen, if_pos hlen, if_pos hlen]
  have hlq : ((posts.length : ℚ)) ≠ 0 := by
    exact_mod_cast Nat.pos_iff_ne_zero.mp hlen
  field_simp
  have hc : ((posts.countP taPosB : ℚ) + posts.countP taNegB +
      posts.countP (fun p => !taPosB p && !taNegB p)) = posts.length := by
    exact_mod_cast hpart
  linarith

/-- Witness for `C10_sentiment_partition` at a single-post corpus. -/
theorem C10_sentiment_partition_witness :
    ([postU "u" "失业"] ≠ ([] : List PostRec)) ∧
    ((analyzeSentimentSimple [postU "u" "失业"]).positive_percentage +
      (analyzeSentimentSimple [postU "u" "失业"]).negative_percentage +
      (analyzeSentimentSimple [postU "u" "失业"]).neutral_percentage =
      100) :=
  ⟨by decide, (C10_sentiment_partition [postU "u" "失业"]).2.2 (by decide)⟩

/-! ### The Post record model (`models/post.py`) -/

structure PostMetadata where
  view_count : Nat
  follow_count : Nat
  upvote_count : Nat
  comment_count : Nat
deriving DecidableEq

structure CommentModel where
  content : String
  author : String
  upvotes : Nat
  downvotes : Nat
deriving DecidableEq

structure PostModel where
  platform : String
  post_type : String
  url : String
  title : String
  content : Option String
  author : Option String
  created_at : Option String
  metadata : PostMetadata
  comments : List CommentModel
  is_relevant : Option Bool
  relevance_note : Option String
deriving DecidableEq

/-- `Post.get_comment_count`. -/
def getCommentCount (p : PostModel) : Nat := p.comments.length

/-- `Post.update_metadata`: sets `metadata.comment_count` to
`len(comments)` (returned as the updated record). -/
def updateMetadata (p : PostModel) : PostModel :=
  { p with metadata :=
      { p.metadata with comment_count := getCommentCount p } }

/-- **C9**: after any replacement of the comments list, running
`update_metadata` restores the invariant
`metadata.comment_count = len(comments)`; the operation is deterministic
and idempotent. -/
theorem C9_comment_count_invariant (p : PostModel)
    (newComments : List CommentModel) :
    (updateMetadata { p with comments := newComments
      }).metadata.comment_count =
      (updateMetadata { p with comments := newComments }).comments.length ∧
    (updateMetadata p).metadata.comment_count = p.comments.length ∧
    updateMetadata (updateMetadata p) = updateMetadata p := by
  refine ⟨rfl, rfl, ?_⟩
  cases p with
  | mk platform post_type url title content author created_at metadata
      comments is_relevant relevance_note =>
    cases metadata
    rfl

/-! ### Date normalization
(`scripts/data_merge_and_clean_v3.py::parse_date`), with the relative-time
patterns of `utils/helpers.py::parse_relative_time` modelled separately
(the source never chains them into `parse_date`). -/

/-- Digit value of an ASCII digit. -/
def dv (c : Char) : Nat := c.toNat - 48

/-- Parsed components of a `datetime.strptime` match. -/
structure DT where
  y : Nat
  m : Nat
  d : Nat
  hh : Nat
  mm : Nat
  ss : Nat
  frac : Nat
deriving DecidableEq

/-- Ordered backtracking alternatives of a sub-pattern. -/
def PParser (α : Type) : Type := List Char → List (α × List Char)

def pbind {α β : Type} (xs : List (α × List Char))
    (f : α → List Char → List (β × List Char)) : List (β × List Char) :=
  xs.bind fun x => f x.1 x.2

/-- `%Y`: exactly four digits (strptime regex `\d\d\d\d`). -/
def pY : PParser Nat
  | a :: b :: c :: d :: rest =>
    if a.isDigit && b.isDigit && c.isDigit && d.isDigit then
      [(((dv a * 10 + dv b) * 10 + dv c) * 10 + dv d, rest)]
    else []
  | _ => []

/-- `%m`: strptime regex `1[0-2]|0[1-9]|[1-9]`, alternatives in order. -/
def pMonth : PParser Nat := fun cs =>
  (match cs with
    | '1' :: c :: rest =>
      if '0' ≤ c ∧ c ≤ '2' then [(10 + dv c, rest)] else []
    | _ => []) ++
  (match cs with
    | '0' :: c :: rest =>
      if '1' ≤ c ∧ c ≤ '9' then [(dv c, rest)] else []
    | _ => []) ++
  (match cs with
    | c :: rest => if '1' ≤ c ∧ c ≤ '9' then [(dv c, rest)] else []
    | _ => [])

/-- `%d`: strptime regex `3[01]|[12]\d|0[1-9]|[1-9]`. -/
def pDay : PParser Nat := fun cs =>
  (match cs with
    | '3' :: c :: rest =>
      if '0' ≤ c ∧ c ≤ '1' then [(30 + dv c, rest)] else []
    | _ => []) ++
  (match cs with
    | c :: d :: rest =>
      if ('1' ≤ c ∧ c ≤ '2') ∧ d.isDigit then
        [(dv c * 10 + dv d, rest)] else []
    | _ => []) ++
  (match cs with
    | '0' :: c :: rest =>
      if '1' ≤ c ∧ c ≤ '9' then [(dv c, rest)] else []
    | _ => []) ++
  (match cs with
    | c :: rest => if '1' ≤ c ∧ c ≤ '9' then [(dv c, rest)] else []
    | _ => [])

/-- `%H`: strptime regex `2[0-3]|[0-1]\d|\d`. -/
def pHour : PParser Nat := fun cs =>
  (match cs with
    | '2' :: c :: rest =>
      if '0' ≤ c ∧ c ≤ '3' then [(20 + dv c, rest)] else []
    | _ => []) ++
  (match cs with
    | c :: d :: rest =>
      if ('0' ≤ c ∧ c ≤ '1') ∧ d.isDigit then
        [(dv c * 10 + dv d, rest)] else []
    | _ => []) ++
  (match cs with
    | c :: rest => if c.isDigit then [(dv c, rest)] else []
    | _ => [])

/-- `%M`: strptime regex `[0-5]\d|\d`. -/
def pMin : PParser Nat := fun cs =>
  (match cs with
    | c :: d :: rest =>
      if ('0' ≤ c ∧ c ≤ '5') ∧ d.isDigit then
        [(dv c * 10 + dv d, rest)] else []
    | _ => []) ++
  (match cs with
    | c :: rest => if c.isDigit then [(dv c, rest)] else []
    | _ => [])

/-- `%S`: strptime regex `6[0-1]|[0-5]\d|\d` (leap seconds pass the regex
but fail `datetime` construction). -/
def pSec : PParser Nat := fun cs =>
  (match cs with
    | '6' :: c :: rest =>
      if '0' ≤ c ∧ c ≤ '1' then [(60 + dv c, rest)] else []
    | _ => []) ++
  (match cs with
    | c :: d :: rest =>
      if ('0' ≤ c ∧ c ≤ '5') ∧ d.isDigit then
        [(dv c * 10 + dv d, rest)] else []
    | _ => []) ++
  (match cs with
    | c :: rest => if c.isDigit then [(dv c, rest)] else []
    | _ => [])

def takeDigitsExact : Nat → List Char → Option (Nat × List Char)
  | 0, cs => some (0, cs)
  | k + 1, c :: rest =>
    if c.isDigit then
      (takeDigitsExact k rest).map (fun x => (dv c * 10 ^ k + x.1, x.2))
    else none
  | _ + 1, [] => none

/-- `%f`: strptime regex `\d{1,6}`, greedy. -/
def pFrac : PParser Nat := fun cs =>
  [6, 5, 4, 3, 2, 1].filterMap fun k =>
    (takeDigitsExact k cs).map (fun x => (x.1, x.2))

/-- A literal character of the format string. -/
def pChar (ch : Char) : List Char → Option (List Char)
  | c :: rest => if c = ch then some rest else none
  | [] => none

def pLit (ch : Char) {α : Type} (xs : List (α × List Char)) :
    List (α × List Char) :=
  xs.filterMap fun x => (pChar ch x.2).map (fun r => (x.1, r))

/-- The `%Y-%m-%d` head shared by every format. -/
def pYMD : List Char → List ((Nat × Nat × Nat) × List Char) := fun cs =>
  pbind (pLit '-' (pbind (pLit '-' (pY cs)) fun y r => (pMonth r).map
    (fun x => ((y, x.1), x.2)))) fun ym r =>
    (pDay r).map (fun x => ((ym.1, ym.2, x.1), x.2))

/-- The `%H:%M:%S` tail shared by the time-carrying formats. -/
def pHMS : List Char → List ((Nat × Nat × Nat) × List Char) := fun cs =>
  pbind (pLit ':' (pbind (pLit ':' (pHour cs)) fun h r => (pMin r).map
    (fun x => ((h, x.1), x.2)))) fun hm r =>
    (pSec r).map (fun x => ((hm.1, hm.2, x.1), x.2))

/-- `"%Y-%m-%dT%H:%M:%S.%fZ"`. -/
def pFmt1 : List Char → List (DT × List Char) := fun cs =>
  pbind (pYMD cs) fun ymd r1 =>
  match pChar 'T' r1 with
  | none => []
  | some r2 =>
    pbind (pHMS r2) fun hms r3 =>
    match pChar '.' r3 with
    | none => []
    | some r4 =>
      pbind (pFrac r4) fun f r5 =>
      match pChar 'Z' r5 with
      | none => []
      | some r6 =>
        [(⟨ymd.1, ymd.2.1, ymd.2.2, hms.1, hms.2.1, hms.2.2, f⟩, r6)]

/-- `"%Y-%m-%dT%H:%M:%SZ"`. -/
def pFmt2 : List Char → List (DT × List Char) := fun cs =>
  pbind (pYMD cs) fun ymd r1 =>
  match pChar 'T' r1 with
  | none => []
  | some r2 =>
    pbind (pHMS r2) fun hms r3 =>
    match pChar 'Z' r3 with
    | none => []
    | some r4 =>
      [(⟨ymd.1, ymd.2.1, ymd.2.2, hms.1, hms.2.1, hms.2.2, 0⟩, r4)]

/-- `"%Y-%m-%d %H:%M:%S"`. -/
def pFmt3 : List Char → List (DT × List Char) := fun cs =>
  pbind (pYMD cs) fun ymd r1 =>
  match pChar ' ' r1 with
  | none => []
  | some r2 =>
    (pHMS r2).map fun x =>
      (⟨ymd.1, ymd.2.1, ymd.2.2, x.1.1, x.1.2.1, x.1.2.2, 0⟩, x.2)

/-- `"%Y-%m-%d"`. -/
def pFmt4 : List Char → List (DT × List Char) := fun cs =>
  (pYMD cs).map fun x => (⟨x.1.1, x.1.2.1, x.1.2.2, 0, 0, 0, 0⟩, x.2)

/-- `"%Y/%m/%d"`. -/
def pFmt5 : List Char → List (DT × List Char) := fun cs =>
  pbind (pLit '/' (pbind (pLit '/' (pY cs)) fun y r => (pMonth r).map
    (fun x => ((y, x.1), x.2)))) fun ym r =>
    (pDay r).map fun x => (⟨ym.1, ym.2, x.1, 0, 0, 0, 0⟩, x.2)

def isLeap (y : Nat) : Bool :=
  (y % 4 = 0 && y % 100 ≠ 0) || y % 400 = 0

def daysInMonth (y m : Nat) : Nat :=
  if m = 2 then (if isLeap y then 29 else 28)
  else if m = 4 ∨ m = 6 ∨ m = 9 ∨ m = 11 then 30
  else 31

/-- The range checks `datetime(...)` performs beyond the strptime regex. -/
def validDT (dt : DT) : Bool :=
  decide (1 ≤ dt.y) && decide (dt.d ≤ daysInMonth dt.y dt.m) &&
    decide (dt.ss ≤ 59)

/-- One `datetime.strptime(s, fmt)` attempt: the regex engine returns the
first match in backtracking order; any unconverted trailing data or an
out-of-range component raises `ValueError` (making the attempt fail). -/
def tryFormat (p : List Char → List (DT × List Char)) (cs : List Char) :
    Option DT :=
  match (p cs).head? with
  | some (dt, rest) => if rest = [] ∧ validDT dt then some dt else none
  | none => none

def formatList : List (List Char → List (DT × List Char)) :=
  [pFmt1, pFmt2, pFmt3, pFmt4, pFmt5]

/-- The `for fmt in formats: try ... except ValueError: continue` loop. -/
def tryFormatsAll (cs : List Char) : Option DT :=
  formatList.foldl
    (fun acc p => match acc with
      | some dt => some dt
      | none => tryFormat p cs) none

/-- Leftmost match of the loose date regex: four digits, a dash-or-slash
separator, one-or-two digits (greedy), the separator class again, and
one-or-two digits (greedy); group strings captured in order. -/
def pSepChar : List Char → Option (List Char)
  | c :: rest => if c = '-' ∨ c = '/' then some rest else none
  | [] => none

def p4DigitsStr : List Char → Option (String × List Char)
  | a :: b :: c :: d :: rest =>
    if a.isDigit && b.isDigit && c.isDigit && d.isDigit then
      some (⟨[a, b, c, d]⟩, rest)
    else none
  | _ => none

def p12DigitsStr : List Char → List (String × List Char) := fun cs =>
  (match cs with
    | a :: b :: rest =>
      if a.isDigit && b.isDigit then [(⟨[a, b]⟩, rest)] else []
    | _ => []) ++
  (match cs with
    | a :: rest => if a.isDigit then [(⟨[a]⟩, rest)] else []
    | _ => [])

def tryRegexAt (cs : List Char) : Option (String × String × String) :=
  match p4DigitsStr cs with
  | none => none
  | some (g1, r1) =>
    match pSepChar r1 with
    | none => none
    | some r2 =>
      (pbind (p12DigitsStr r2) fun g2 r3 =>
        match pSepChar r3 with
        | none => []
        | some r4 =>
          (p12DigitsStr r4).map fun x => ((g2, x.1), x.2)).head?.map
        fun x => (g1, x.1.1, x.1.2)

def regexSearchYMD : List Char → Option (String × String × String)
  | [] => none
  | c :: rest =>
    match tryRegexAt (c :: rest) with
    | some g => some g
    | none => regexSearchYMD rest

def zfill2 (s : String) : String :=
  if s.length ≥ 2 then s else "0" ++ s

def pad2 (n : Nat) : String :=
  if n < 10 then "0" ++ toString n else toString n

def pad4 (n : Nat) : String :=
  if n < 10 then "000" ++ toString n
  else if n < 100 then "00" ++ toString n
  else if n < 1000 then "0" ++ toString n
  else toString n

/-- Embeds `parse_date` (lines 22-48): falsy input gives `""`; otherwise
try the five absolute formats in order (formatting a hit as
`%Y-%m-%d`), then the loose regex extraction (with `zfill(2)` padding),
and finally return the input unchanged. -/
def parseDate (ds : Option String) : String :=
  match ds with
  | none => ""
  | some s =>
    if s = "" then ""
    else
      match tryFormatsAll s.data with
      | some dt => pad4 dt.y ++ "-" ++ pad2 dt.m ++ "-" ++ pad2 dt.d
      | none =>
        match regexSearchYMD s.data with
        | some (g1, g2, g3) =>
          g1 ++ "-" ++ zfill2 g2 ++ "-" ++ zfill2 g3
        | none => s

example : parseDate (some "2023-02-15T10:30:00.123Z") = "2023-02-15" := by
  decide
example : parseDate (some "2023/1/5") = "2023-01-05" := by decide
example : parseDate (some "发布于2023-1-5啊") = "2023-01-05" := by decide
example : parseDate (some "2023-02-30") = "2023-02-30" := by decide
example : parseDate (some "hello") = "hello" := by decide
example : parseDate none = "" := by decide

/-- The relative-time patterns `(\d+)\s*<unit>前` of
`utils/helpers.py::parse_relative_time` (lines 29-43): does any of them
match somewhere in the text? -/
def relUnits : List String :=
  ["秒前", "分钟前", "小时前", "天前", "周前", "月前", "年前"]

def relAt (unit : List Char) : List Char → Bool
  | c :: rest =>
    c.isDigit && pfx unit ((rest.dropWhile Char.isDigit).dropWhile isPySpace)
  | [] => false

def relSearchUnit (unit : List Char) : List Char → Bool
  | [] => false
  | c :: rest => relAt unit (c :: rest) || relSearchUnit unit rest

def relMatches (s : String) : Bool :=
  relUnits.any fun u => relSearchUnit u.data s.data

/-- **C8** (counterexample): the input "3天前" matches a relative-time
pattern, so under the claimed strategy chain it would be normalized by the
relative step; but `parse_date` has no such step and returns the string
unchanged. -/
theorem C8_relative_not_chained :
    relMatches "3天前" = true ∧ parseDate (some "3天前") = "3天前" := by
  decide

/-- **C8** (amended): `parse_date` never raises: for falsy input it
returns `""`, and whenever every absolute format fails and the loose
regex extraction finds nothing, it returns the original string unchanged
(relative-time parsing lives in the separate helper
`parse_relative_time`, which `parse_date` does not invoke). -/
theorem C8_parse_date_fallback (s : String)
    (hf : tryFormatsAll s.data = none)
    (hr : regexSearchYMD s.data = none) :
    parseDate (some s) = s ∧ parseDate none = "" := by
  refine ⟨?_, rfl⟩
  by_cases hs : s = ""
  · subst hs
    rfl
  · simp only [parseDate, if_neg hs, hf, hr]

/-- Witness for `C8_parse_date_fallback` at the input "hello". -/
theorem C8_parse_date_fallback_witness :
    (tryFormatsAll "hello".data = none ∧
      regexSearchYMD "hello".data = none) ∧
    (parseDate (some "hello") = "hello" ∧ parseDate none = "") :=
  ⟨⟨by decide, by decide⟩,
    C8_parse_date_fallback "hello" (by decide) (by decide)⟩

/-! ### Idempotence of the cleaner on its own output -/

theorem cleanComments_cons (c : CommentRec) (cs : List CommentRec) :
    cleanComments (c :: cs) =
      if optTruthy (c.content.map cleanText) = true then
        coerceVotes { c with content := c.content.map cleanText } ::
          cleanComments cs
      else cleanComments cs := rfl

theorem coerceVotes_idem (c : CommentRec) :
    coerceVotes (coerceVotes c) = coerceVotes c := by
  cases c with
  | mk content up down =>
    cases up <;> cases down <;> rfl

theorem coerceVotes_content (c : CommentRec) :
    (coerceVotes c).content = c.content := rfl

theorem voteCoerce_map_idem (o : Option PyVal) :
    ((o.map fun v => PyVal.vint (coerceVote v)).map
      fun v => PyVal.vint (coerceVote v)) =
      o.map fun v => PyVal.vint (coerceVote v) := by
  cases o <;> rfl

theorem voteCoerce_comp_idem (o : Option PyVal) :
    Option.map ((fun v => PyVal.vint (coerceVote v)) ∘ fun v =>
      PyVal.vint (coerceVote v)) o =
      Option.map (fun v => PyVal.vint (coerceVote v)) o := by
  cases o <;> rfl

theorem cleanComments_idem :
    ∀ cs, cleanComments (cleanComments cs) = cleanComments cs := by
  intro cs
  induction cs with
  | nil => rfl
  | cons c cs ih =>
    cases c with
    | mk cnt up down =>
      cases cnt with
      | none =>
        rw [cleanComments_cons, if_neg (by simp [optTruthy])]
        exact ih
      | some s =>
        by_cases hne : cleanText s = ""
        · have hcond : optTruthy ((some s).map cleanText) = false := by
            simp [optTruthy, hne]
          rw [cleanComments_cons, if_neg (by rw [hcond]; simp)]
          exact ih
        · have hcond : optTruthy ((some s).map cleanText) = true := by
            simp [optTruthy, hne]
          simp [cleanComments_cons, hcond, coerceVotes, optTruthy,
            cleanText_idem, voteCoerce_map_idem, voteCoerce_comp_idem,
            hne, ih]

theorem cleanPostComments_url (p : PostRec) :
    (cleanPostComments p).url = p.url := by
  simp only [cleanPostComments]
  split <;> rfl

theorem cleanPostComments_title (p : PostRec) :
    (cleanPostComments p).title = p.title := by
  simp only [cleanPostComments]
  split <;> rfl

theorem cleanPostComments_content (p : PostRec) :
    (cleanPostComments p).content = p.content := by
  simp only [cleanPostComments]
  split <;> rfl

theorem cleanPostComments_of_fixed {p : PostRec}
    (h : cleanComments p.comments = p.comments) : cleanPostComments p = p := by
  simp only [cleanPostComments]
  split
  · rfl
  · cases p
    simp only at h
    simp [h]

theorem cleanPostComments_comments_fixed (p : PostRec) :
    cleanComments (cleanPostComments p).comments =
      (cleanPostComments p).comments := by
  simp only [cleanPostComments]
  split
  · rename_i he
    have : p.comments = [] := by
      cases hc : p.comments
      · rfl
      · rw [hc] at he; exact absurd he (by simp [List.isEmpty])
    rw [this]
    rfl
  · exact cleanComments_idem p.comments

/-- Shape of every post produced by the cleaning stage: nonempty URL,
nonempty `clean_text`-fixed title, `clean_text`-fixed content, and comments
fixed under `_clean_comments`. -/
def CleanedPost (p : PostRec) : Prop :=
  p.url ≠ "" ∧
  (∃ t, p.title = some t ∧ t ≠ "" ∧ cleanText t = t) ∧
  (∀ s, p.content = some s → cleanText s = s) ∧
  cleanComments p.comments = p.comments

theorem cleanPostText_of_cleaned {p : PostRec} (h : CleanedPost p) :
    cleanPostText p = p := by
  obtain ⟨_, ⟨t, ht, _, htfix⟩, hcont, _⟩ := h
  cases p with
  | mk url platform title content author created_at comments =>
    simp only at ht hcont
    simp only [cleanPostText, PostRec.mk.injEq, true_and, and_true]
    constructor
    · rw [ht]
      simp [htfix]
    · cases hcc : content with
      | none => rfl
      | some s => simp [hcont s hcc]

theorem cleanStage_cons (p : PostRec) (rest : List PostRec) :
    cleanStage (p :: rest) =
      if optTruthy (cleanPostText p).title &&
          decide ((cleanPostText p).url ≠ "") then
        (cleanPostComments (cleanPostText p) :: (cleanStage rest).1,
          (cleanStage rest).2.1,
          (cleanStage rest).2.2 +
            (if (cleanPostText p).comments.isEmpty then 0
              else (cleanComments (cleanPostText p).comments).length))
      else ((cleanStage rest).1, (cleanStage rest).2.1 + 1,
        (cleanStage rest).2.2) := rfl

theorem cleanStage_of_cleaned :
    ∀ l : List PostRec, (∀ p ∈ l, CleanedPost p) → (cleanStage l).1 = l := by
  intro l
  induction l with
  | nil => intro _; rfl
  | cons p rest ih =>
    intro h
    have hp := h p (List.mem_cons_self _ _)
    have htext := cleanPostText_of_cleaned hp
    obtain ⟨hu, ⟨t, ht, htne, _⟩, _, hcom⟩ := hp
    rw [cleanStage_cons, htext]
    rw [if_pos (by
      simp only [Bool.and_eq_true, decide_eq_true_eq]
      exact ⟨by simp [ht, optTruthy, htne], hu⟩)]
    simp only
    rw [cleanPostComments_of_fixed hcom,
      ih (fun q hq => h q (List.mem_cons_of_mem _ hq))]

theorem cleanStage_output_cleaned :
    ∀ l : List PostRec, ∀ p ∈ (cleanStage l).1, CleanedPost p := by
  intro l
  induction l with
  | nil => intro p hp; exact absurd hp (by simp [cleanStage])
  | cons q rest ih =>
    intro p hp
    rw [cleanStage_cons] at hp
    by_cases hcond : (optTruthy (cleanPostText q).title &&
        decide ((cleanPostText q).url ≠ "")) = true
    · rw [if_pos hcond] at hp
      simp only at hp
      rcases List.mem_cons.mp hp with rfl | hp
      · simp only [Bool.and_eq_true, decide_eq_true_eq] at hcond
        obtain ⟨htt, huu⟩ := hcond
        refine ⟨?_, ?_, ?_, ?_⟩
        · rw [cleanPostComments_url]
          exact huu
        · rw [cleanPostComments_title]
          obtain ⟨t0, ht0⟩ : ∃ t0, q.title = some t0 := by
            cases hq : q.title with
            | none =>
              rw [show (cleanPostText q).title = q.title.map cleanText from
                rfl, hq] at htt
              exact absurd htt (by simp [optTruthy])
            | some t0 => exact ⟨t0, rfl⟩
          refine ⟨cleanText t0, ?_, ?_, cleanText_idem t0⟩
          · show (q.title.map cleanText) = _
            rw [ht0]
            rfl
          · rw [show (cleanPostText q).title = q.title.map cleanText from rfl,
              ht0] at htt
            simpa [optTruthy] using htt
        · rw [cleanPostComments_content]
          intro s hsv
          have : q.content.map cleanText = some s := hsv
          cases hq : q.content with
          | none => rw [hq] at this; exact absurd this (by simp)
          | some s0 =>
            rw [hq] at this
            have hss : cleanText s0 = s := by simpa using this
            rw [← hss]
            exact cleanText_idem s0
        · exact cleanPostComments_comments_fixed (cleanPostText q)
      · exact ih p hp
    · rw [if_neg hcond] at hp
      simp only at hp
      exact ih p hp

/-! ### Relevance evaluator (`ai_search/relevance_evaluator.py`) -/

/-- `KEYWORDS['primary']` from `config/config.py`. -/
def primaryKeywords : List String :=
  ["ChatGPT", "GPT", "大模型", "大语言模型", "AI", "人工智能",
   "文心一言", "通义千问", "讯飞星火", "Claude", "Gemini"]

/-- `KEYWORDS['secondary']` from `config/config.py`. -/
def secondaryKeywords : List String :=
  ["程序员", "开发", "工程师", "IT", "技术", "编程",
   "就业", "失业", "岗位", "职位", "工作", "求职",
   "技能", "能力", "学习", "转型"]

/-- `KEYWORDS['exclude']` from `config/config.py`. -/
def excludeKeywords : List String :=
  ["招聘广告", "售卖", "推广", "课程售卖"]

structure RelevanceScore where
  url : String
  score : ℚ
  is_relevant : Bool
  reasons : List String
  confidence : ℚ
deriving DecidableEq

/-- `title.lower() + ' ' + content.lower()` over `.get(..., '')` fields. -/
def fullTextOf (p : PostRec) : String :=
  toLowerStr (p.title.getD "") ++ " " ++ toLowerStr (p.content.getD "")

/-- Embeds `RelevanceEvaluator.evaluate_post_simple`: exclude-keyword
short-circuit, then +0.4 per matching primary keyword and +0.1 per matching
secondary keyword (case-insensitive substring), clamped at 1.0, with
`is_relevant = score >= 0.5` and confidence 0.7. -/
def evaluatePostSimple (p : PostRec) : RelevanceScore :=
  let full := fullTextOf p
  match excludeKeywords.find? (fun kw => strIn (toLowerStr kw) full) with
  | some kw =>
      { url := p.url, score := 0, is_relevant := false,
        reasons := ["包含排除关键词: " ++ kw], confidence := 9/10 }
  | none =>
      let primaryMatches :=
        primaryKeywords.filter (fun kw => strIn (toLowerStr kw) full)
      let score1 : ℚ := primaryKeywords.foldl
        (fun acc kw => if strIn (toLowerStr kw) full then acc + 2/5 else acc) 0
      let secondaryMatches :=
        secondaryKeywords.filter (fun kw => strIn (toLowerStr kw) full)
      let score2 : ℚ := secondaryKeywords.foldl
        (fun acc kw => if strIn (toLowerStr kw) full then acc + 1/10 else acc)
        score1
      let reasons1 := if primaryMatches.isEmpty then ([] : List String)
        else ["匹配主关键词: " ++ String.intercalate ", " primaryMatches]
      let reasons2 := if secondaryMatches.isEmpty then reasons1
        else reasons1 ++
          ["匹配次关键词: " ++
            String.intercalate ", " (secondaryMatches.take 5)]
      let score := min score2 1
      let reasons := if reasons2.isEmpty then ["未找到相关关键词"]
        else reasons2
      { url := p.url, score := score,
        is_relevant := decide ((1 : ℚ)/2 ≤ score),
        reasons := reasons, confidence := 7/10 }

theorem foldl_step_count {f : String → Bool} (c : ℚ) :
    ∀ (l : List String) (a : ℚ),
      l.foldl (fun acc kw => if f kw then acc + c else acc) a =
        a + c * (l.countP f : ℚ) := by
  intro l
  induction l with
  | nil => intro a; simp
  | cons k rest ih =>
    intro a
    by_cases hk : f k = true
    · rw [List.foldl_cons, if_pos hk, ih, List.countP_cons, if_pos hk]
      push_cast
      ring
    · rw [List.foldl_cons, if_neg hk, ih, List.countP_cons,
        if_neg hk]
      push_cast
      ring

/-- **C2**: if any exclude keyword occurs (case-insensitive substring) in
`title + content`, the simple evaluator returns score 0.0, not relevant,
confidence 0.9, with the reasons naming the (first matching) exclude
keyword — regardless of any primary/secondary matches. -/
theorem C2_exclude_dominance (p : PostRec)
    (h : ∃ kw ∈ excludeKeywords,
      strIn (toLowerStr kw) (fullTextOf p) = true) :
    ∃ kw ∈ excludeKeywords, strIn (toLowerStr kw) (fullTextOf p) = true ∧
      evaluatePostSimple p =
        { url := p.url, score := 0, is_relevant := false,
          reasons := ["包含排除关键词: " ++ kw], confidence := 9/10 } := by
  cases hf : excludeKeywords.find?
      (fun kw => strIn (toLowerStr kw) (fullTextOf p)) with
  | none =>
    exfalso
    rcases h with ⟨kw, hmem, hkw⟩
    have := List.find?_eq_none.mp hf kw hmem
    simp [hkw] at this
  | some kw =>
    have h1 := List.find?_some hf
    refine ⟨kw, List.mem_of_find?_eq_some hf, h1, ?_⟩
    simp only [evaluatePostSimple, hf]

/-- Witness for `C2_exclude_dominance`: a post whose title contains the
exclude keyword "售卖" as well as primary keyword "GPT". -/
theorem C2_exclude_dominance_witness :
    (∃ kw ∈ excludeKeywords,
      strIn (toLowerStr kw) (fullTextOf (postU "u" "GPT课程售卖")) = true) ∧
    (∃ kw ∈ excludeKeywords,
      strIn (toLowerStr kw) (fullTextOf (postU "u" "GPT课程售卖")) = true ∧
      evaluatePostSimple (postU "u" "GPT课程售卖") =
        { url := "u", score := 0, is_relevant := false,
          reasons := ["包含排除关键词: " ++ kw], confidence := 9/10 }) :=
  ⟨by decide, C2_exclude_dominance _ (by decide)⟩

/-- **C3**: with no exclude keyword present, the score is
`min (0.4·#primary + 0.1·#secondary) 1` over distinct matched keywords,
`is_relevant` holds exactly when the clamped score is at least 0.5, and the
confidence of the keyword-only method is 0.7. -/
theorem C3_keyword_scoring (p : PostRec)
    (h : ∀ kw ∈ excludeKeywords,
      strIn (toLowerStr kw) (fullTextOf p) = false) :
    (evaluatePostSimple p).score =
      min ((2/5 : ℚ) * (primaryKeywords.countP
            (fun kw => strIn (toLowerStr kw) (fullTextOf p)) : ℚ) +
        (1/10 : ℚ) * (secondaryKeywords.countP
            (fun kw => strIn (toLowerStr kw) (fullTextOf p)) : ℚ)) 1 ∧
    ((evaluatePostSimple p).is_relevant = true ↔
      (1 : ℚ)/2 ≤ (evaluatePostSimple p).score) ∧
    (evaluatePostSimple p).confidence = 7/10 := by
  have hf : excludeKeywords.find?
      (fun kw => strIn (toLowerStr kw) (fullTextOf p)) = none :=
    List.find?_eq_none.mpr (fun kw hkw => by simp [h kw hkw])
  simp only [evaluatePostSimple, hf, foldl_step_count]
  refine ⟨?_, ?_, ?_⟩
  · ring_nf
  · simp [decide_eq_true_iff]
  · trivial

/-- Witness for `C3_keyword_scoring`: title "gpt 就业" matches one primary
and one secondary keyword, landing exactly on the 0.5 threshold. -/
theorem C3_keyword_scoring_witness :
    (∀ kw ∈ excludeKeywords,
      strIn (toLowerStr kw) (fullTextOf (postU "u" "gpt 就业")) = false) ∧
    ((evaluatePostSimple (postU "u" "gpt 就业")).score =
      min ((2/5 : ℚ) * (primaryKeywords.countP
            (fun kw => strIn (toLowerStr kw) (fullTextOf (postU "u" "gpt 就业")))
          : ℚ) +
        (1/10 : ℚ) * (secondaryKeywords.countP
            (fun kw => strIn (toLowerStr kw) (fullTextOf (postU "u" "gpt 就业")))
          : ℚ)) 1 ∧
    ((evaluatePostSimple (postU "u" "gpt 就业")).is_relevant = true ↔
      (1 : ℚ)/2 ≤ (evaluatePostSimple (postU "u" "gpt 就业")).score) ∧
    (evaluatePostSimple (postU "u" "gpt 就业")).confidence = 7/10) :=
  ⟨by decide, C3_keyword_scoring _ (by decide)⟩

theorem cleanStage_url_sublist :
    ∀ l : List PostRec,
      ((cleanStage l).1.map PostRec.url).Sublist (l.map PostRec.url) := by
  intro l
  induction l with
  | nil => exact List.Sublist.refl _
  | cons p rest ih =>
    rw [cleanStage_cons]
    by_cases hcond : (optTruthy (cleanPostText p).title &&
        decide ((cleanPostText p).url ≠ "")) = true
    · rw [if_pos hcond]
      simp only [List.map_cons]
      have hu : (cleanPostComments (cleanPostText p)).url = p.url := by
        rw [cleanPostComments_url]
        rfl
      rw [hu]
      exact ih.cons₂ _
    · rw [if_neg hcond]
      simp only [List.map_cons]
      exact ih.cons _

theorem dedupAux_nodup :
    ∀ (posts : List PostRec) (seen : List String),
      ((dedupAux seen posts).1.map PostRec.url).Nodup ∧
      (∀ p ∈ (dedupAux seen posts).1, p.url ∉ seen ∧ p.url ≠ "") := by
  intro posts
  induction posts with
  | nil =>
    intro seen
    exact ⟨List.nodup_nil, by simp [dedupAux]⟩
  | cons p rest ih =>
    intro seen
    simp only [dedupAux]
    split
    · rename_i hcond
      have ha : p.url ≠ "" :=
        of_decide_eq_true (Bool.and_eq_true _ _ |>.mp hcond).1
      have hb : seen.contains p.url = false := by
        have h2 := (Bool.and_eq_true _ _ |>.mp hcond).2
        cases hm : seen.contains p.url
        · rfl
        · rw [hm] at h2
          exact absurd h2 (by decide)
      have hbm : p.url ∉ seen := fun hmem => by
        have hx := strContains_iff.mpr hmem
        rw [hb] at hx
        exact absurd hx (by decide)
      obtain ⟨ih1, ih2⟩ := ih (p.url :: seen)
      refine ⟨?_, ?_⟩
      · simp only [List.map_cons]
        refine List.nodup_cons.mpr ⟨?_, ih1⟩
        intro hmem
        rcases List.mem_map.mp hmem with ⟨q, hq, hqu⟩
        exact (ih2 q hq).1 (hqu ▸ List.mem_cons_self _ _)
      · intro q hq
        rcases List.mem_cons.mp hq with rfl | hq
        · exact ⟨hbm, ha⟩
        · have h2 := ih2 q hq
          exact ⟨fun hmem => h2.1 (List.mem_cons_of_mem _ hmem), h2.2⟩
    · exact ih seen

theorem dedupAux_eq_self :
    ∀ (l : List PostRec) (seen : List String),
      (l.map PostRec.url).Nodup →
      (∀ p ∈ l, p.url ≠ "" ∧ p.url ∉ seen) →
      dedupAux seen l = (l, 0) := by
  intro l
  induction l with
  | nil => intro _ _ _; rfl
  | cons p rest ih =>
    intro seen h1 h2
    have hp := h2 p (List.mem_cons_self _ _)
    simp only [dedupAux]
    rw [if_pos (by
      simp [hp.1]
      exact hp.2)]
    have hkey : p.url ∉ rest.map PostRec.url :=
      (List.nodup_cons.mp (by simpa using h1)).1
    rw [ih (p.url :: seen) (List.nodup_cons.mp (by simpa using h1)).2
      (fun q hq => ⟨(h2 q (List.mem_cons_of_mem _ hq)).1, by
        intro hmem
        rcases List.mem_cons.mp hmem with hqp | hmem
        · exact hkey (hqp ▸ List.mem_map_of_mem PostRec.url hq)
        · exact (h2 q (List.mem_cons_of_mem _ hq)).2 hmem⟩)]

theorem cleanWithPython_fst (posts : List PostRec) :
    (cleanWithPython posts).1 = (cleanStage (dedupAux [] posts).1).1 := rfl

/-- The pure-Python cleaning path is idempotent on its own output. -/
theorem cleanWithPython_fst_idem (posts : List PostRec) :
    (cleanWithPython (cleanWithPython posts).1).1 =
      (cleanWithPython posts).1 := by
  have hclean : ∀ p ∈ (cleanWithPython posts).1, CleanedPost p := by
    intro p hp
    rw [cleanWithPython_fst] at hp
    exact cleanStage_output_cleaned _ p hp
  have hnodup : ((cleanWithPython posts).1.map PostRec.url).Nodup := by
    rw [cleanWithPython_fst]
    exact ((dedupAux_nodup posts []).1).sublist (cleanStage_url_sublist _)
  rw [cleanWithPython_fst ((cleanWithPython posts).1)]
  rw [dedupAux_eq_self _ [] hnodup
    (fun p hp => ⟨(hclean p hp).1, by simp⟩)]
  exact cleanStage_of_cleaned _ hclean

theorem cleanPostComments_idem (p : PostRec) :
    cleanPostComments (cleanPostComments p) = cleanPostComments p :=
  cleanPostComments_of_fixed (cleanPostComments_comments_fixed p)

theorem map_eq_self_of_fix {α : Type} {f : α → α} :
    ∀ l : List α, (∀ a ∈ l, f a = a) → l.map f = l := by
  intro l
  induction l with
  | nil => intro _; rfl
  | cons a l ih =>
    intro h
    rw [List.map_cons, h a (List.mem_cons_self _ _),
      ih (fun b hb => h b (List.mem_cons_of_mem _ hb))]

/-- The URL list that survives the Polars dedup + validity filter. -/
def polarsUrls (posts : List PostRec) : List String :=
  ((ukfRows [] (posts.map fun p => (p.url, dfTitle p))).filter
    (fun r => decide (r.2 ≠ "") && decide (r.1 ≠ ""))).map Prod.fst

theorem cleanWithPolars_fst (posts : List PostRec) :
    (cleanWithPolars posts).1 = (polarsCollect (polarsUrls posts) posts).1 :=
  rfl

theorem polarsCollect_fst (U : List String) :
    ∀ ps, (polarsCollect U ps).1 =
      (ps.filter (fun p => U.contains p.url)).map cleanPostComments := by
  intro ps
  induction ps with
  | nil => rfl
  | cons p rest ih =>
    simp only [polarsCollect]
    by_cases hc : U.contains p.url = true
    · rw [if_pos hc, List.filter_cons_of_pos (by simpa using hc),
        List.map_cons, ih]
    · rw [if_neg hc, List.filter_cons_of_neg (by simpa using hc), ih]

theorem cleanWithPolars_fst_form (posts : List PostRec) :
    (cleanWithPolars posts).1 =
      (posts.filter (fun p => (polarsUrls posts).contains p.url)).map
        cleanPostComments := by
  rw [cleanWithPolars_fst, polarsCollect_fst]

theorem rho_cleanPostComments (p : PostRec) :
    ((cleanPostComments p).url, dfTitle (cleanPostComments p)) =
      (p.url, dfTitle p) := by
  rw [cleanPostComments_url]
  have ht : dfTitle (cleanPostComments p) = dfTitle p := by
    simp only [dfTitle, cleanPostComments_title]
  rw [ht]

theorem map_rho_cpc :
    ∀ l : List PostRec,
      ((l.map cleanPostComments).map fun p => (p.url, dfTitle p)) =
        l.map fun p => (p.url, dfTitle p) := by
  intro l
  induction l with
  | nil => rfl
  | cons p rest ih =>
    simp only [List.map_cons, ih, List.cons.injEq, and_true]
    exact rho_cleanPostComments p

theorem map_rho_filter (U : List String) :
    ∀ ps : List PostRec,
      ((ps.filter fun p => U.contains p.url).map fun p => (p.url, dfTitle p))
        = (ps.map fun p => (p.url, dfTitle p)).filter
            fun r => U.contains r.1 := by
  intro ps
  induction ps with
  | nil => rfl
  | cons p rest ih =>
    by_cases hc : U.contains p.url = true
    · rw [List.filter_cons_of_pos (by simpa using hc), List.map_cons,
        List.map_cons, List.filter_cons_of_pos (by simpa using hc), ih]
    · rw [List.filter_cons_of_neg (by simpa using hc), List.map_cons,
        List.filter_cons_of_neg (by simpa using hc), ih]

theorem ukfRows_mem_find :
    ∀ (rs : List (String × String)) (seen : List String)
      (r : String × String), r ∈ ukfRows seen rs →
      rs.find? (fun x => decide (x.1 = r.1)) = some r ∧
        seen.contains r.1 = false := by
  intro rs
  induction rs with
  | nil => intro seen r hr; exact absurd hr (by simp [ukfRows])
  | cons r0 rest ih =>
    intro seen r hr
    simp only [ukfRows] at hr
    by_cases hc : seen.contains r0.1 = true
    · rw [if_pos hc] at hr
      obtain ⟨hfind, hseen⟩ := ih seen r hr
      have hne : r0.1 ≠ r.1 := by
        intro he
        rw [he, hseen] at hc
        exact absurd hc (by decide)
      rw [List.find?_cons_of_neg _ (by simpa using hne)]
      exact ⟨hfind, hseen⟩
    · rw [if_neg hc] at hr
      rcases List.mem_cons.mp hr with rfl | hr
      · refine ⟨List.find?_cons_of_pos _ (by simp), ?_⟩
        cases hm : seen.contains r.1
        · rfl
        · exact absurd hm hc
      · obtain ⟨hfind, hseen⟩ := ih (r0.1 :: seen) r hr
        have hseen' : seen.contains r.1 = false := by
          cases hm : seen.contains r.1
          · rfl
          · exfalso
            have : (r0.1 :: seen).contains r.1 = true := by
              rw [strContains_iff]
              exact List.mem_cons_of_mem _ (strContains_iff.mp hm)
            rw [this] at hseen
            exact absurd hseen (by decide)
        have hne : r0.1 ≠ r.1 := by
          intro he
          have : (r0.1 :: seen).contains r.1 = true := by
            rw [strContains_iff, ← he]
            exact List.mem_cons_self _ _
          rw [this] at hseen
          exact absurd hseen (by decide)
        rw [List.find?_cons_of_neg _ (by simpa using hne)]
        exact ⟨hfind, hseen'⟩

theorem find_mem_ukfRows :
    ∀ (rs : List (String × String)) (seen : List String) (k : String)
      (r : String × String),
      rs.find? (fun x => decide (x.1 = k)) = some r →
      seen.contains k = false → r ∈ ukfRows seen rs := by
  intro rs
  induction rs with
  | nil => intro seen k r hr _; exact absurd hr (by simp)
  | cons r0 rest ih =>
    intro seen k r hfind hseen
    by_cases hk : r0.1 = k
    · rw [List.find?_cons_of_pos _ (by simpa using hk)] at hfind
      have hr : r0 = r := Option.some.inj hfind
      subst hr
      simp only [ukfRows]
      rw [if_neg (by rw [hk, hseen]; decide)]
      exact List.mem_cons_self _ _
    · rw [List.find?_cons_of_neg _ (by simpa using hk)] at hfind
      simp only [ukfRows]
      by_cases hc : seen.contains r0.1 = true
      · rw [if_pos hc]
        exact ih seen k r hfind hseen
      · rw [if_neg hc]
        refine List.mem_cons_of_mem _ (ih (r0.1 :: seen) k r hfind ?_)
        cases hm : (r0.1 :: seen).contains k
        · rfl
        · exfalso
          rcases List.mem_cons.mp (strContains_iff.mp hm) with he | hmem
          · exact hk he.symm
          · have := strContains_iff.mpr hmem
            rw [hseen] at this
            exact absurd this (by decide)

theorem find_filter_keyed {k : String} {U : List String}
    (hU : U.contains k = true) :
    ∀ rs : List (String × String),
      ((rs.filter fun r => U.contains r.1).find?
        fun x => decide (x.1 = k)) =
        rs.find? (fun x => decide (x.1 = k)) := by
  intro rs
  induction rs with
  | nil => rfl
  | cons r0 rest ih =>
    by_cases hk : r0.1 = k
    · have hkeep : U.contains r0.1 = true := by rw [hk]; exact hU
      rw [List.filter_cons_of_pos (by simpa using hkeep),
        List.find?_cons_of_pos _ (by simpa using hk),
        List.find?_cons_of_pos _ (by simpa using hk)]
    · rw [List.find?_cons_of_neg _ (by simpa using hk)]
      by_cases hc : U.contains r0.1 = true
      · rw [List.filter_cons_of_pos (by simpa using hc),
          List.find?_cons_of_neg _ (by simpa using hk), ih]
      · rw [List.filter_cons_of_neg (by simpa using hc), ih]

/-- The Polars cleaning path is idempotent on its own output. -/
theorem cleanWithPolars_fst_idem (posts : List PostRec) :
    (cleanWithPolars (cleanWithPolars posts).1).1 =
      (cleanWithPolars posts).1 := by
  have hrows :
      ((cleanWithPolars posts).1.map fun p => (p.url, dfTitle p)) =
        (posts.map fun p => (p.url, dfTitle p)).filter
          (fun r => (polarsUrls posts).contains r.1) := by
    rw [cleanWithPolars_fst_form, map_rho_cpc, map_rho_filter]
  have hmemS : ∀ p ∈ (cleanWithPolars posts).1,
      (polarsUrls (cleanWithPolars posts).1).contains p.url = true := by
    intro p hp
    rw [cleanWithPolars_fst_form] at hp
    rcases List.mem_map.mp hp with ⟨q, hq, rfl⟩
    rcases List.mem_filter.mp hq with ⟨hqX, hqS⟩
    rw [cleanPostComments_url]
    have hqS' : (polarsUrls posts).contains q.url = true := by simpa using hqS
    obtain ⟨rS, hrSfil, hrSkey⟩ :
        ∃ rS, rS ∈ (ukfRows [] (posts.map fun p => (p.url, dfTitle p))).filter
          (fun r => decide (r.2 ≠ "") && decide (r.1 ≠ "")) ∧ rS.1 = q.url := by
      rcases List.mem_map.mp (strContains_iff.mp hqS') with ⟨rS, hrS, hrk⟩
      exact ⟨rS, hrS, hrk⟩
    rcases List.mem_filter.mp hrSfil with ⟨hrSukf, hrSvalid⟩
    obtain ⟨hfindX, _⟩ := ukfRows_mem_find _ [] rS hrSukf
    have hfindO :
        (((cleanWithPolars posts).1.map fun p => (p.url, dfTitle p)).find?
          fun x => decide (x.1 = rS.1)) = some rS := by
      rw [hrows, hrSkey]
      rw [find_filter_keyed hqS']
      rw [← hrSkey, hfindX]
    have hmem := find_mem_ukfRows _ [] rS.1 rS hfindO rfl
    rw [← hrSkey]
    exact strContains_iff.mpr (List.mem_map_of_mem Prod.fst
      (List.mem_filter.mpr ⟨hmem, hrSvalid⟩))
  rw [cleanWithPolars_fst_form ((cleanWithPolars posts).1)]
  rw [List.filter_eq_self.mpr (fun p hp => by simpa using hmemS p hp)]
  apply map_eq_self_of_fix
  intro p hp
  rw [cleanWithPolars_fst_form] at hp
  rcases List.mem_map.mp hp with ⟨q, _, rfl⟩
  exact cleanPostComments_idem q

theorem ukfRows_map_eq :
    ∀ (posts : List PostRec) (seen : List String),
      ukfRows seen (posts.map (fun p => (p.url, dfTitle p))) =
        (specFirstOcc seen posts).map (fun p => (p.url, dfTitle p)) := by
  intro posts
  induction posts with
  | nil => intro seen; rfl
  | cons p rest ih =>
    intro seen
    by_cases hc : seen.contains p.url = true
    · simp only [List.map_cons, ukfRows, specFirstOcc, if_pos hc, ih]
    · simp only [List.map_cons, ukfRows, specFirstOcc, if_neg hc, ih,
        List.map_cons]

/-- **C1** (code bug): on the batch `[p, p]` with a shared URL `"u"` and a
valid title, the Polars cleaning path reports one removed duplicate yet
returns BOTH posts, so `total_posts ≠ len(output) + removed_duplicates +
invalid_removed`, violating the conservation law the spec declares as the
auditable contract (the pure-Python fallback does satisfy it, see
`cleanWithPython_conservation`). -/
theorem C1_polars_conservation_violated :
    ((cleanWithPolars [postU "u" "t", postU "u" "t"]).2.total_posts = 2 ∧
      (cleanWithPolars [postU "u" "t", postU "u" "t"]).1.length = 2 ∧
      (cleanWithPolars [postU "u" "t", postU "u" "t"]).2.removed_duplicates
        = 1 ∧
      (cleanWithPolars [postU "u" "t", postU "u" "t"]).2.invalid_removed
        = 0) ∧
    (cleanWithPolars [postU "u" "t", postU "u" "t"]).2.total_posts ≠
      (cleanWithPolars [postU "u" "t", postU "u" "t"]).1.length +
        (cleanWithPolars [postU "u" "t", postU "u" "t"]).2.removed_duplicates
        + (cleanWithPolars [postU "u" "t", postU "u" "t"]).2.invalid_removed
    := by decide

/-- **C4** (counterexample): deduplication does NOT normalize the URL
(no scheme/host lowercasing): two posts whose URLs differ only in case are
both kept with `removed_duplicates = 0`; moreover for the empty dedup key
even the first occurrence is dropped (both empty-URL posts are counted as
duplicates). -/
theorem C4_dedup_counterexample :
    ((cleanWithPython
        [postU "HTTP://E.com/x" "a", postU "http://e.com/x" "b"]).1 =
          [postU "HTTP://E.com/x" "a", postU "http://e.com/x" "b"] ∧
      (cleanWithPython
        [postU "HTTP://E.com/x" "a", postU "http://e.com/x" "b"]
          ).2.removed_duplicates = 0) ∧
    ((cleanWithPython [postU "" "a", postU "" "b"]).1 = [] ∧
      (cleanWithPython [postU "" "a", postU "" "b"]).2.removed_duplicates
        = 2) := by decide

/-- **C4** (amended): deduplication keys on the exact raw `url` string
(no normalization); for an input whose records all have non-empty URLs,
the dedup step of both paths keeps exactly the first occurrence of each URL
in input order, and `removed_duplicates` equals the number of dropped later
occurrences. -/
theorem C4_dedup_first_occurrence (posts : List PostRec)
    (h : ∀ p ∈ posts, p.url ≠ "") :
    (dedupAux [] posts).1 = specFirstOcc [] posts ∧
    (dedupAux [] posts).2 + (specFirstOcc [] posts).length = posts.length ∧
    ukfRows [] (posts.map fun p => (p.url, dfTitle p)) =
      (specFirstOcc [] posts).map fun p => (p.url, dfTitle p) := by
  have hd := dedupAux_eq_specFirstOcc posts [] h
  refine ⟨by rw [hd], ?_, ukfRows_map_eq posts []⟩
  rw [hd]
  have hle := specFirstOcc_length_le posts []
  simp only
  omega

/-- Witness for `C4_dedup_first_occurrence` at a concrete three-post batch
with one duplicated URL. -/
theorem C4_dedup_first_occurrence_witness :
    (∀ p ∈ [postU "a" "x", postU "a" "y", postU "b" "z"], p.url ≠ "") ∧
    ((dedupAux [] [postU "a" "x", postU "a" "y", postU "b" "z"]).1 =
        specFirstOcc [] [postU "a" "x", postU "a" "y", postU "b" "z"] ∧
      (dedupAux [] [postU "a" "x", postU "a" "y", postU "b" "z"]).2 +
        (specFirstOcc []
          [postU "a" "x", postU "a" "y", postU "b" "z"]).length =
        ([postU "a" "x", postU "a" "y", postU "b" "z"] : List PostRec).length
        ∧
      ukfRows [] ([postU "a" "x", postU "a" "y", postU "b" "z"].map
        fun p => (p.url, dfTitle p)) =
        (specFirstOcc [] [postU "a" "x", postU "a" "y", postU "b" "z"]).map
          fun p => (p.url, dfTitle p)) :=
  ⟨by decide, C4_dedup_first_occurrence _ (by decide)⟩

/-- **C5** (counterexample): on the batch `[{url: "", title: "a"}]` the
Polars path cleans to the empty list (the empty-URL row fails the validity
filter), and re-running `clean_posts` on that empty output raises
`ColumnNotFoundError` (the zero-column frame has no `url`/`title`), so
`dedup(dedup(X)) == dedup(X)` fails: the re-run errors instead of
returning the same (empty) list. -/
theorem C5_polars_error_counterexample :
    (cleanPostsPolars [postU "" "a"]).map Prod.fst = some [] ∧
    ((cleanPostsPolars [postU "" "a"]).map
      fun x => x.2.invalid_removed) = some 1 ∧
    cleanPostsPolars [] = none := by decide

/-- **C5** (amended): the pure-Python fallback is idempotent on its own
output for every input batch; the Polars path is idempotent on its own
output whenever a run succeeds AND its output is non-empty — re-running
`clean_posts` then returns the same list of posts unchanged (an empty
cleaned output instead makes the re-run raise `ColumnNotFoundError` on the
zero-column frame). -/
theorem C5_clean_posts_idempotent_amended (posts : List PostRec)
    (out : List PostRec × CleanStats)
    (hrun : cleanPostsPolars posts = some out)
    (hne : out.1 ≠ []) :
    (cleanWithPython (cleanWithPython posts).1).1 =
      (cleanWithPython posts).1 ∧
    (cleanPostsPolars out.1).map Prod.fst = some out.1 := by
  refine ⟨cleanWithPython_fst_idem posts, ?_⟩
  have hout : out = cleanWithPolars posts := by
    unfold cleanPostsPolars at hrun
    split at hrun
    · cases hrun
    · exact (Option.some.inj hrun).symm
  subst hout
  have hnem : ((cleanWithPolars posts).1).isEmpty = false := by
    cases hh : (cleanWithPolars posts).1
    · rw [hh] at hne
      exact absurd rfl hne
    · rfl
  unfold cleanPostsPolars
  rw [if_neg (by simp [hnem])]
  have hmap : (some (cleanWithPolars ((cleanWithPolars posts).1))).map
      Prod.fst = some ((cleanWithPolars ((cleanWithPolars posts).1)).1) :=
    rfl
  rw [hmap, cleanWithPolars_fst_idem]

/-- Witness for `C5_clean_posts_idempotent_amended` at a one-post batch
with a valid URL and title. -/
theorem C5_clean_posts_idempotent_amended_witness :
    (cleanPostsPolars [postU "u" "t"] =
        some (cleanWithPolars [postU "u" "t"]) ∧
      (cleanWithPolars [postU "u" "t"]).1 ≠ []) ∧
    ((cleanWithPython (cleanWithPython [postU "u" "t"]).1).1 =
        (cleanWithPython [postU "u" "t"]).1 ∧
      (cleanPostsPolars (cleanWithPolars [postU "u" "t"]).1).map Prod.fst =
        some (cleanWithPolars [postU "u" "t"]).1) :=
  ⟨⟨by decide, by decide⟩,
    C5_clean_posts_idempotent_amended _ _ (by decide) (by decide)⟩
